import Mathlib

/-!
Shallow embedding of the hours reconciliation and minimum-billing engine of
the `hours-svelte` repository (src/lib/server/services/rounding.ts and
src/lib/server/services/minimum-billing.ts), together with proofs checking
the natural-language specification against it.

Timestamps are modelled as integers of milliseconds since the epoch: a JS
`Date` time value is always an integral number of milliseconds, and JS number
arithmetic on these in-range integers is exact.  The engine's two uses of
non-integer arithmetic — `Math.floor`/`Math.ceil` of `t / interval`, and the
duration-in-minutes values `(end - start) / 60000` — are modelled exactly by
integer floor/ceil division and by exact rational division respectively; the
lemmas named `*_minutes_iff` and `getBlockDurationMinutes_*` below relate the
millisecond formulations used in the executable definitions to the source's
minute formulations.
-/

abbrev Time := ℤ

/-- Provenance tag of a derived billing record (the string union types of the
source, `'inside-rounded' | 'inside-rounded-overlapping'` and
`"inside-minimum-billable-time"`). -/
inductive Source where
  | insideRounded
  | insideRoundedOverlapping
  | insideMinimumBillableTime
deriving DecidableEq

/-- The fields of a raw `HourEntry` row that the engine reads
(schema.ts: id, phaseId, worktypeId, startTime, endTime, description). -/
structure HourEntry where
  id : Int
  phaseId : Option Int
  worktypeId : Option Int
  startTime : Time
  endTime : Option Time
  description : Option String
deriving DecidableEq

structure PrecisionFlags where
  startRounded : Bool
  endRounded : Bool
deriving DecidableEq

/-- rounding.ts: `RoundedEntry`. -/
structure RoundedEntry where
  hourEntryId : Int
  phaseId : Option Int
  worktypeId : Option Int
  startTime : Time
  endTime : Time
  description : Option String
  source : Source
  originalStartTime : Time
  originalEndTime : Time
  precisionRounding : PrecisionFlags
deriving DecidableEq

/-- rounding.ts line 3: `const ROUNDING_INTERVAL_MINUTES = 5`. -/
def ROUNDING_INTERVAL_MINUTES : ℤ := 5

/-- One rounding interval in milliseconds (`ROUNDING_INTERVAL_MINUTES * 60 * 1000`). -/
def ROUNDING_INTERVAL_MS : ℤ := ROUNDING_INTERVAL_MINUTES * 60 * 1000

/-- rounding.ts `roundDown`: `new Date(Math.floor(date.getTime() / ms) * ms)`.
For a positive integer `ms`, `Math.floor(t / ms)` is the floor division
`Int.fdiv t ms`. -/
def roundDown (date : Time) (intervalMinutes : ℤ) : Time :=
  let ms := intervalMinutes * 60 * 1000
  Int.fdiv date ms * ms

/-- rounding.ts `roundUp`: `new Date(Math.ceil(date.getTime() / ms) * ms)`.
For a positive integer `ms`, `Math.ceil(t / ms) = -Math.floor(-t / ms)`. -/
def roundUp (date : Time) (intervalMinutes : ℤ) : Time :=
  let ms := intervalMinutes * 60 * 1000
  Neg.neg (Int.fdiv (-date) ms) * ms

/-- rounding.ts `rangesOverlap`: `start1 < end2 && start2 < end1`. -/
def rangesOverlap (start1 end1 start2 end2 : Time) : Prop :=
  start1 < end2 ∧ start2 < end1

instance (s1 e1 s2 e2 : Time) : Decidable (rangesOverlap s1 e1 s2 e2) := by
  unfold rangesOverlap; infer_instance

/-- rounding.ts `getOverlapMs`: 0 when the ranges do not overlap, otherwise
`min(end1, end2) - max(start1, start2)`. -/
def getOverlapMs (start1 end1 start2 end2 : Time) : ℤ :=
  if rangesOverlap start1 end1 start2 end2 then
    min end1 end2 - max start1 start2
  else 0

/-- Comparison by a start-time key, modelling the JS comparator
`(a, b) => a.startTime.getTime() - b.startTime.getTime()`. -/
def byStart {α : Type} (key : α → Time) (a b : α) : Prop := key a ≤ key b

instance {α : Type} (key : α → Time) : DecidableRel (byStart key) := fun a b => by
  unfold byStart; infer_instance

instance {α : Type} (key : α → Time) : IsTotal α (byStart key) :=
  ⟨fun a b => le_total (key a) (key b)⟩

instance {α : Type} (key : α → Time) : IsTrans α (byStart key) :=
  ⟨fun _ _ _ h h' => le_trans h h'⟩

/-- The stable sort by ascending start time used throughout the source
(JS `Array.prototype.sort` is stable; so is `List.insertionSort`). -/
def sortRounded (l : List RoundedEntry) : List RoundedEntry :=
  l.insertionSort (byStart RoundedEntry.startTime)

/-- The entry-to-RoundedEntry map of `applyPrecisionRounding`
(rounding.ts lines 76-98), for an entry whose end time is `originalEnd`. -/
def toRoundedEntry (entry : HourEntry) (originalEnd : Time) : RoundedEntry :=
  let originalStart := entry.startTime
  let roundedStart := roundDown originalStart ROUNDING_INTERVAL_MINUTES
  let roundedEnd := roundUp originalEnd ROUNDING_INTERVAL_MINUTES
  { hourEntryId := entry.id
    phaseId := entry.phaseId
    worktypeId := entry.worktypeId
    startTime := roundedStart
    endTime := roundedEnd
    description := entry.description
    source := Source.insideRounded
    originalStartTime := originalStart
    originalEndTime := originalEnd
    precisionRounding :=
      { startRounded := decide (roundedStart ≠ originalStart)
        endRounded := decide (roundedEnd ≠ originalEnd) } }

/-- rounding.ts `applyPrecisionRounding`: drop entries with null end time,
round start down / end up to the 5-minute grid, record the flags, sort by
start time. -/
def applyPrecisionRounding (entries : List HourEntry) : List RoundedEntry :=
  sortRounded <| entries.filterMap fun entry =>
    match entry.endTime with
    | none => none
    | some originalEnd => some (toRoundedEntry entry originalEnd)

/-- The body of the inner loop of `handlePrecisionOverlapping`
(rounding.ts lines 118-144), acting on the mutable `current` for one
`previous` entry. Note that the `continue` on line 140 targets the inner
`for (let j ...)` loop and nothing follows it in the loop body, so it has no
effect on the computation: the zero-duration check does not remove anything. -/
def phaseAFold (getCustomerId : Option Int → Option Int)
    (current previous : RoundedEntry) : RoundedEntry :=
  if getOverlapMs previous.startTime previous.endTime current.startTime current.endTime
      = ROUNDING_INTERVAL_MINUTES * 60 * 1000 then
    if getCustomerId current.phaseId = getCustomerId previous.phaseId ∧
        getCustomerId current.phaseId ≠ none then
      { current with
          startTime := current.startTime + ROUNDING_INTERVAL_MINUTES * 60 * 1000 }
    else current
  else current

/-- The inner `for (let j = 0; j < result.length; j++)` loop of
`handlePrecisionOverlapping`, folding `phaseAFold` over the already-placed
entries. -/
def phaseAInner (getCustomerId : Option Int → Option Int)
    (result : List RoundedEntry) (current : RoundedEntry) : RoundedEntry :=
  result.foldl (phaseAFold getCustomerId) current

/-- The outer loop of `handlePrecisionOverlapping`: every processed entry is
pushed onto `result` (see `phaseAFold` on the ineffective `continue`). -/
def phaseAGo (getCustomerId : Option Int → Option Int) :
    List RoundedEntry → List RoundedEntry → List RoundedEntry
  | result, [] => result
  | result, current :: rest =>
      phaseAGo getCustomerId (result ++ [phaseAInner getCustomerId result current]) rest

/-- rounding.ts `handlePrecisionOverlapping` (Overlap Resolver Phase A). -/
def handlePrecisionOverlapping (entries : List RoundedEntry)
    (getCustomerId : Option Int → Option Int) : List RoundedEntry :=
  phaseAGo getCustomerId [] (sortRounded entries)

/-- rounding.ts `handleOverlapping` (Overlap Resolver Phase B), as its loop:
`result` holds the accepted entries, the current entry is re-tagged when it
overlaps any of them. -/
def phaseBGo : List RoundedEntry → List RoundedEntry → List RoundedEntry
  | result, [] => result
  | result, current :: rest =>
      let isOverlapping := result.any fun previous =>
        decide (rangesOverlap previous.startTime previous.endTime
          current.startTime current.endTime)
      let current' := if isOverlapping
        then { current with source := Source.insideRoundedOverlapping }
        else current
      phaseBGo (result ++ [current']) rest

/-- rounding.ts `handleOverlapping`. -/
def handleOverlapping (entries : List RoundedEntry) : List RoundedEntry :=
  phaseBGo [] (sortRounded entries)

/-- rounding.ts `applyHoursBalanceRounding`: precision rounding, Phase A,
then Phase B. -/
def applyHoursBalanceRounding (entries : List HourEntry)
    (getCustomerId : Option Int → Option Int) : List RoundedEntry :=
  handleOverlapping (handlePrecisionOverlapping (applyPrecisionRounding entries) getCustomerId)

/-- rounding.ts `getRoundedDurationMinutes`. -/
def getRoundedDurationMinutes (entry : RoundedEntry) : ℚ :=
  ((entry.endTime - entry.startTime : ℤ) : ℚ) / (60 * 1000)

/-- minimum-billing.ts: `MinimumBillingEntry`. -/
structure MinimumBillingEntry where
  hourEntryId : Int
  phaseId : Option Int
  worktypeId : Option Int
  startTime : Time
  endTime : Time
  source : Source
  originalHourEntryId : Int
deriving DecidableEq

/-- minimum-billing.ts: `CaseConfig`. -/
structure CaseConfig where
  caseId : Int
  minBillableTimeInMin : ℤ
deriving DecidableEq

/-- minimum-billing.ts: `CombinedDuration` (a gapless block of entries). -/
structure CombinedDuration where
  phaseId : Option Int
  startTime : Time
  endTime : Time
  entries : List RoundedEntry
deriving DecidableEq

/-- minimum-billing.ts line 26: `END_OF_DAY_LIMIT_MINUTES = 23 * 60 + 55`. -/
def END_OF_DAY_LIMIT_MINUTES : ℤ := 23 * 60 + 55

/-- The running `currentBlock.endTime` update of `combineIntoBlocks`
(`if (entry.endTime > currentBlock.endTime) currentBlock.endTime = entry.endTime`). -/
def blockEndUpdate (m : Time) (e : RoundedEntry) : Time :=
  if e.endTime > m then e.endTime else m

/-- The loop of `combineIntoBlocks` over the sorted tail, carrying the
current block. -/
def combineGo : CombinedDuration → List RoundedEntry → List CombinedDuration
  | currentBlock, [] => [currentBlock]
  | currentBlock, entry :: rest =>
      if entry.startTime ≤ currentBlock.endTime then
        combineGo
          { currentBlock with
              endTime := blockEndUpdate currentBlock.endTime entry
              entries := currentBlock.entries ++ [entry] }
          rest
      else
        currentBlock ::
          combineGo
            { phaseId := entry.phaseId
              startTime := entry.startTime
              endTime := entry.endTime
              entries := [entry] } rest

/-- minimum-billing.ts `combineIntoBlocks`. -/
def combineIntoBlocks (entries : List RoundedEntry) : List CombinedDuration :=
  match sortRounded entries with
  | [] => []
  | first :: rest =>
      combineGo
        { phaseId := first.phaseId
          startTime := first.startTime
          endTime := first.endTime
          entries := [first] } rest

/-- minimum-billing.ts `getBlockDurationMinutes`. -/
def getBlockDurationMinutes (block : CombinedDuration) : ℚ :=
  ((block.endTime - block.startTime : ℤ) : ℚ) / (60 * 1000)

/-- minimum-billing.ts `getEndOfDayLimit`: `setHours(23, 55, 0, 0)` on a copy
of the date. Local time is modelled as a fixed offset `tz` (milliseconds east
of UTC, no DST): the result is 23:55 local time on the local calendar day of
`date`. -/
def getEndOfDayLimit (tz date : Time) : Time :=
  Int.fdiv (date + tz) (24 * 60 * 60 * 1000) * (24 * 60 * 60 * 1000)
    - tz + END_OF_DAY_LIMIT_MINUTES * 60 * 1000

/-- Insertion into the insertion-ordered `Map` `entriesByCase`: a new key is
appended at the end, an existing key has the entry pushed onto its list. -/
def pushGroup (m : List (Int × List RoundedEntry)) (caseId : Int)
    (entry : RoundedEntry) : List (Int × List RoundedEntry) :=
  match m with
  | [] => [(caseId, [entry])]
  | (k, es) :: rest =>
      if k = caseId then (k, es ++ [entry]) :: rest
      else (k, es) :: pushGroup rest caseId entry

/-- The grouping loop of `applyMinimumBilling` (minimum-billing.ts lines
100-109): entries with no case config or a non-positive minimum are skipped. -/
def groupByCase (getCaseConfig : Option Int → Option CaseConfig) :
    List RoundedEntry → List (Int × List RoundedEntry) → List (Int × List RoundedEntry)
  | [], m => m
  | entry :: rest, m =>
      match getCaseConfig entry.phaseId with
      | none => groupByCase getCaseConfig rest m
      | some config =>
          if config.minBillableTimeInMin ≤ 0 then groupByCase getCaseConfig rest m
          else groupByCase getCaseConfig rest (pushGroup m config.caseId entry)

/-- minimum-billing.ts line 137: the unclamped padding end
`paddingStart + neededPadding * 60 * 1000`, where the source's minute values
`neededPadding = minMinutes - getBlockDurationMinutes block` convert exactly
to the millisecond form used here (`neededPadding_minutes_eq`). -/
def paddingDesiredEnd0 (minMinutes : ℤ) (block : CombinedDuration) : Time :=
  block.endTime + (minMinutes * 60 * 1000 - (block.endTime - block.startTime))

/-- minimum-billing.ts lines 140-142: clamp the desired end by the end-of-day
limit of the padding start. -/
def clampEndOfDay (tz paddingStart d : Time) : Time :=
  if d > getEndOfDayLimit tz paddingStart then getEndOfDayLimit tz paddingStart else d

/-- minimum-billing.ts lines 145-147: clamp the desired end by the next known
entry start, when the lookup returns one. -/
def clampNextStart (nextStart : Option Time) (d : Time) : Time :=
  match nextStart with
  | some ns => if d > ns then ns else d
  | none => d

/-- The fully clamped padding end for a block (minimum-billing.ts lines
131-147). -/
def paddingDesiredEnd (tz : Time) (getNextEntryStart : Time → List Int → Option Time)
    (minMinutes : ℤ) (block : CombinedDuration) : Time :=
  clampNextStart
    (getNextEntryStart block.endTime (block.entries.map fun e => e.hourEntryId))
    (clampEndOfDay tz block.endTime (paddingDesiredEnd0 minMinutes block))

/-- The per-block body of `applyMinimumBilling` (minimum-billing.ts lines
121-164): at most one padding record per block.  The source's guard is
`getBlockDurationMinutes block >= minMinutes`; on exact arithmetic it equals
the millisecond comparison used here (`getBlockDurationMinutes_lt_iff`). -/
def paddingForBlock (tz : Time)
    (getNextEntryStart : Time → List Int → Option Time)
    (minMinutes : ℤ) (block : CombinedDuration) : Option MinimumBillingEntry :=
  if block.endTime - block.startTime ≥ minMinutes * 60 * 1000 then none
  else if paddingDesiredEnd tz getNextEntryStart minMinutes block > block.endTime then
    match block.entries with
    | [] => none
    | referenceEntry :: _ =>
        some {
          hourEntryId := referenceEntry.hourEntryId
          phaseId := referenceEntry.phaseId
          worktypeId := referenceEntry.worktypeId
          startTime := block.endTime
          endTime := paddingDesiredEnd tz getNextEntryStart minMinutes block
          source := Source.insideMinimumBillableTime
          originalHourEntryId := referenceEntry.hourEntryId }
  else none

/-- The per-case body of `applyMinimumBilling` (minimum-billing.ts lines
112-165): re-fetch the config from the first grouped entry's phase, combine
into blocks, emit at most one padding record per short block. -/
def paddingForCase (tz : Time)
    (getCaseConfig : Option Int → Option CaseConfig)
    (getNextEntryStart : Time → List Int → Option Time)
    (caseEntries : List RoundedEntry) : List MinimumBillingEntry :=
  match caseEntries with
  | [] => []
  | first :: _ =>
      match getCaseConfig first.phaseId with
      | none => []
      | some config =>
          (combineIntoBlocks caseEntries).flatMap fun block =>
            (paddingForBlock tz getNextEntryStart config.minBillableTimeInMin block).toList

/-- The comparator sort on minimum-billing entries. -/
def sortMinBilling (l : List MinimumBillingEntry) : List MinimumBillingEntry :=
  l.insertionSort (byStart MinimumBillingEntry.startTime)

/-- minimum-billing.ts `applyMinimumBilling`. -/
def applyMinimumBilling (tz : Time) (entries : List RoundedEntry)
    (getCaseConfig : Option Int → Option CaseConfig)
    (getNextEntryStart : Time → List Int → Option Time) : List MinimumBillingEntry :=
  let entriesByCase := groupByCase getCaseConfig entries []
  sortMinBilling <| entriesByCase.flatMap fun g =>
    paddingForCase tz getCaseConfig getNextEntryStart g.2

/-- An element of the merged output of `mergeWithRoundedEntries` (the TS
union type `RoundedEntry | MinimumBillingEntry`; the source widens the
minimum-billing record with null description, identity original times and
false rounding flags, which adds no information). -/
inductive MergedRecord where
  | rounded (e : RoundedEntry)
  | minBilling (e : MinimumBillingEntry)
deriving DecidableEq

def MergedRecord.startTime : MergedRecord → Time
  | .rounded e => e.startTime
  | .minBilling e => e.startTime

def MergedRecord.endTime : MergedRecord → Time
  | .rounded e => e.endTime
  | .minBilling e => e.endTime

def MergedRecord.source : MergedRecord → Source
  | .rounded e => e.source
  | .minBilling e => e.source

/-- minimum-billing.ts `mergeWithRoundedEntries`: concatenate and sort by
start time. -/
def mergeWithRoundedEntries (roundedEntries : List RoundedEntry)
    (minBillingEntries : List MinimumBillingEntry) : List MergedRecord :=
  (roundedEntries.map MergedRecord.rounded
    ++ minBillingEntries.map MergedRecord.minBilling).insertionSort
    (byStart MergedRecord.startTime)

/-- minimum-billing.ts `getMinBillingDurationMinutes`. -/
def getMinBillingDurationMinutes (entry : MinimumBillingEntry) : ℚ :=
  ((entry.endTime - entry.startTime : ℤ) : ℚ) / (60 * 1000)

/-- The full pipeline in the orchestrator's fixed order (spec section 4.5):
rounding and overlap resolution, minimum billing on the overlap-resolved
entries, then the merge. -/
def runPipeline (tz : Time) (entries : List HourEntry)
    (getCustomerId : Option Int → Option Int)
    (getCaseConfig : Option Int → Option CaseConfig)
    (getNextEntryStart : Time → List Int → Option Time) : List MergedRecord :=
  let rounded := applyHoursBalanceRounding entries getCustomerId
  mergeWithRoundedEntries rounded
    (applyMinimumBilling tz rounded getCaseConfig getNextEntryStart)

/-! ### Derived notions used by the statements and proofs -/

/-- The instant `t` lies in some entry's half-open interval `[start, end)`. -/
def coveredBy (l : List RoundedEntry) (t : Time) : Prop :=
  ∃ r ∈ l, r.startTime ≤ t ∧ t < r.endTime

instance (l : List RoundedEntry) (t : Time) : Decidable (coveredBy l t) := by
  unfold coveredBy; infer_instance

/-- The instant `t` lies in some merged record's half-open interval. -/
def mergedCoveredBy (l : List MergedRecord) (t : Time) : Prop :=
  ∃ r ∈ l, r.startTime ≤ t ∧ t < r.endTime

instance (l : List MergedRecord) (t : Time) : Decidable (mergedCoveredBy l t) := by
  unfold mergedCoveredBy; infer_instance

/-- Two rounded entries' intervals intersect at some instant. -/
def entriesOverlap (a b : RoundedEntry) : Prop :=
  rangesOverlap a.startTime a.endTime b.startTime b.endTime

instance (a b : RoundedEntry) : Decidable (entriesOverlap a b) := by
  unfold entriesOverlap; infer_instance

/-- Erase the provenance tag (for comparing entries up to their tag). -/
def clearSource (e : RoundedEntry) : RoundedEntry :=
  { e with source := Source.insideRounded }

/-- The running block end produced by `combineIntoBlocks` when the listed
entries join a block whose end is currently `m`. -/
def runEnd (m : Time) (l : List RoundedEntry) : Time :=
  l.foldl blockEndUpdate m

/-- Each listed entry starts no later than the running block end at the time
it is appended (the join condition of `combineIntoBlocks`). -/
def chainedFrom : Time → List RoundedEntry → Prop
  | _, [] => True
  | m, e :: es => e.startTime ≤ m ∧ chainedFrom (blockEndUpdate m e) es

instance : ∀ (m : Time) (l : List RoundedEntry), Decidable (chainedFrom m l)
  | _, [] => by unfold chainedFrom; infer_instance
  | m, e :: es =>
      have : Decidable (chainedFrom (blockEndUpdate m e) es) := instDecidableChainedFrom _ es
      by unfold chainedFrom; infer_instance

/-- Shape invariant of a block built by `combineIntoBlocks`: its phase id and
start come from its first entry, its end is the running maximum of its
entries' ends, and every later entry joined while starting no later than the
then-current block end. -/
def BlockInv (b : CombinedDuration) : Prop :=
  ∃ e0 es, b.entries = e0 :: es ∧ b.phaseId = e0.phaseId ∧
    b.startTime = e0.startTime ∧ b.endTime = runEnd e0.endTime es ∧
    chainedFrom e0.endTime es

/-- Invariant of the Phase A loop: every already-placed entry `p` has been
postponed only across instants that `res` itself still covers, starting from
a start time no later than every entry still to be processed. -/
def GoodResFor (res l : List RoundedEntry) : Prop :=
  ∀ p ∈ res, ∃ s0 : Time, (∀ x ∈ l, s0 ≤ x.startTime) ∧ s0 ≤ p.startTime ∧
    ∀ t : Time, s0 ≤ t → t < p.startTime → coveredBy res t

/-- Test fixture: a grid-aligned rounded entry. -/
def mkRounded (id : Int) (ph : Option Int) (s e : Time) : RoundedEntry :=
  { hourEntryId := id, phaseId := ph, worktypeId := none
    startTime := s, endTime := e, description := none
    source := Source.insideRounded, originalStartTime := s, originalEndTime := e
    precisionRounding := ⟨false, false⟩ }

/-- Test fixture: a raw hour entry. -/
def mkRaw (id : Int) (ph : Option Int) (s : Time) (e : Option Time) : HourEntry :=
  { id := id, phaseId := ph, worktypeId := none
    startTime := s, endTime := e, description := none }

/-- Test fixture for the block combiner: two joining entries and one after a
gap. -/
def c6Input : List RoundedEntry :=
  [mkRounded 1 (some 5) 0 600000, mkRounded 2 (some 6) 300000 900000,
    mkRounded 3 (some 7) 1800000 2400000]

/-- The first block `combineIntoBlocks` produces from `c6Input`. -/
def c6Block : CombinedDuration :=
  { phaseId := some 5, startTime := 0, endTime := 900000
    entries := [mkRounded 1 (some 5) 0 600000, mkRounded 2 (some 6) 300000 900000] }

/-- Test fixture: case config lookup giving case 7 a 30-minute minimum for
phase 2 and nothing for other phases. -/
def mbCfg : Option Int → Option CaseConfig :=
  fun p => if p = some 2 then some ⟨7, 30⟩ else none

/-- Test fixture: next-entry lookup that knows no later entry. -/
def mbNext : Time → List Int → Option Time := fun _ _ => none

/-- Test fixture: the single block formed from entry 2. -/
def mbBlock : CombinedDuration :=
  { phaseId := some 2, startTime := 300000, endTime := 900000
    entries := [mkRounded 2 (some 2) 300000 900000] }

/-- Test fixture: the padding record minimum billing emits for `mbBlock`
under `mbCfg` and `mbNext`. -/
def mbPadding : MinimumBillingEntry :=
  { hourEntryId := 2, phaseId := some 2, worktypeId := none
    startTime := 900000, endTime := 2100000
    source := Source.insideMinimumBillableTime, originalHourEntryId := 2 }

/-! ### Rounding lemmas -/

theorem roundDown_le (date : Time) {i : ℤ} (h : 0 < i) : roundDown date i ≤ date := by
  show Int.fdiv date (i * 60 * 1000) * (i * 60 * 1000) ≤ date
  have hms : (0:ℤ) < i * 60 * 1000 := by positivity
  have h1 := Int.fmod_add_fdiv date (i * 60 * 1000)
  have h2 := Int.fmod_nonneg' date hms
  have h3 : Int.fdiv date (i * 60 * 1000) * (i * 60 * 1000)
      = (i * 60 * 1000) * Int.fdiv date (i * 60 * 1000) := mul_comm _ _
  rw [h3]; linarith

theorem le_roundUp (date : Time) {i : ℤ} (h : 0 < i) : date ≤ roundUp date i := by
  show date ≤ Neg.neg (Int.fdiv (-date) (i * 60 * 1000)) * (i * 60 * 1000)
  have := roundDown_le (-date) h
  have h4 : roundDown (-date) i = Int.fdiv (-date) (i * 60 * 1000) * (i * 60 * 1000) := rfl
  rw [h4] at this
  linarith [neg_mul (Int.fdiv (-date) (i * 60 * 1000)) (i * 60 * 1000)]

theorem roundDown_of_aligned {date : Time} {i : ℤ} (h : i ≠ 0)
    (ha : ∃ k : ℤ, date = k * (i * 60 * 1000)) : roundDown date i = date := by
  obtain ⟨k, rfl⟩ := ha
  show Int.fdiv (k * (i * 60 * 1000)) (i * 60 * 1000) * (i * 60 * 1000) = _
  rw [Int.mul_fdiv_cancel k (by positivity : i * 60 * 1000 ≠ 0)]

theorem roundUp_of_aligned {date : Time} {i : ℤ} (h : i ≠ 0)
    (ha : ∃ k : ℤ, date = k * (i * 60 * 1000)) : roundUp date i = date := by
  obtain ⟨k, rfl⟩ := ha
  show Neg.neg (Int.fdiv (-(k * (i * 60 * 1000))) (i * 60 * 1000)) * (i * 60 * 1000) = _
  rw [show -(k * (i * 60 * 1000)) = (-k) * (i * 60 * 1000) by ring,
    Int.mul_fdiv_cancel (-k) (by positivity : i * 60 * 1000 ≠ 0), neg_neg]

/-! ### Membership in `applyPrecisionRounding` -/

theorem mem_applyPrecisionRounding {entries : List HourEntry} {r : RoundedEntry} :
    r ∈ applyPrecisionRounding entries ↔
      ∃ e ∈ entries, ∃ oe : Time, e.endTime = some oe ∧ r = toRoundedEntry e oe := by
  unfold applyPrecisionRounding sortRounded
  rw [List.mem_insertionSort, List.mem_filterMap]
  constructor
  · rintro ⟨e, he, hf⟩
    cases hoe : e.endTime with
    | none => rw [hoe] at hf; exact absurd hf (by simp)
    | some oe =>
        rw [hoe] at hf
        simp only [Option.some.injEq] at hf
        exact ⟨e, he, oe, hoe, hf.symm⟩
  · rintro ⟨e, he, oe, hoe, rfl⟩
    exact ⟨e, he, by rw [hoe]⟩

/-- C3: for every input entry with non-null end time, `applyPrecisionRounding`
produces a rounded entry with start rounded down and end rounded up to the
5-minute grid, so the rounded interval contains the original; endpoints that
are already multiples of 5 minutes are unchanged and their rounding flags are
false. -/
theorem C3_precision_rounding_containment (entries : List HourEntry) :
    (∀ e ∈ entries, ∀ oe : Time, e.endTime = some oe →
      ∃ r ∈ applyPrecisionRounding entries,
        r = toRoundedEntry e oe ∧
        r.startTime = roundDown e.startTime ROUNDING_INTERVAL_MINUTES ∧
        r.endTime = roundUp oe ROUNDING_INTERVAL_MINUTES ∧
        r.startTime ≤ e.startTime ∧ oe ≤ r.endTime ∧
        ((∃ k : ℤ, e.startTime = k * ROUNDING_INTERVAL_MS) →
          (∃ k : ℤ, oe = k * ROUNDING_INTERVAL_MS) →
          r.startTime = e.startTime ∧ r.endTime = oe ∧
          r.precisionRounding.startRounded = false ∧
          r.precisionRounding.endRounded = false)) ∧
    ∀ r ∈ applyPrecisionRounding entries,
      r.startTime ≤ r.originalStartTime ∧ r.originalEndTime ≤ r.endTime := by
  constructor
  · intro e he oe hoe
    refine ⟨toRoundedEntry e oe, mem_applyPrecisionRounding.mpr ⟨e, he, oe, hoe, rfl⟩,
      rfl, rfl, rfl, roundDown_le e.startTime (by decide),
      le_roundUp oe (by decide), ?_⟩
    intro hks hke
    have h1 : roundDown e.startTime ROUNDING_INTERVAL_MINUTES = e.startTime :=
      roundDown_of_aligned (by decide) hks
    have h2 : roundUp oe ROUNDING_INTERVAL_MINUTES = oe :=
      roundUp_of_aligned (by decide) hke
    refine ⟨h1, h2, ?_, ?_⟩
    · show decide (roundDown e.startTime ROUNDING_INTERVAL_MINUTES ≠ e.startTime) = false
      rw [h1]; simp
    · show decide (roundUp oe ROUNDING_INTERVAL_MINUTES ≠ oe) = false
      rw [h2]; simp
  · intro r hr
    obtain ⟨e, he, oe, hoe, rfl⟩ := mem_applyPrecisionRounding.mp hr
    exact ⟨roundDown_le _ (by decide), le_roundUp _ (by decide)⟩

/-- Witness for C3 at a concrete aligned input. -/
theorem C3_precision_rounding_containment_witness :
    ∃ r ∈ applyPrecisionRounding [mkRaw 1 none 300000 (some 600000)],
      r = toRoundedEntry (mkRaw 1 none 300000 (some 600000)) 600000 ∧
      r.startTime = roundDown (mkRaw 1 none 300000 (some 600000)).startTime
        ROUNDING_INTERVAL_MINUTES ∧
      r.endTime = roundUp 600000 ROUNDING_INTERVAL_MINUTES ∧
      r.startTime ≤ (mkRaw 1 none 300000 (some 600000)).startTime ∧
      (600000 : Time) ≤ r.endTime ∧
      ((∃ k : ℤ, (mkRaw 1 none 300000 (some 600000)).startTime = k * ROUNDING_INTERVAL_MS) →
        (∃ k : ℤ, (600000 : Time) = k * ROUNDING_INTERVAL_MS) →
        r.startTime = (mkRaw 1 none 300000 (some 600000)).startTime ∧
        r.endTime = 600000 ∧
        r.precisionRounding.startRounded = false ∧
        r.precisionRounding.endRounded = false) :=
  (C3_precision_rounding_containment [mkRaw 1 none 300000 (some 600000)]).1
    (mkRaw 1 none 300000 (some 600000)) (by decide) 600000 rfl

/-- C4: in one Phase A check of a candidate against an already-placed entry,
the candidate's start is postponed — and then by exactly one rounding
interval — if and only if the overlap is exactly one rounding interval and
both entries resolve to the same non-null customer; otherwise (including
whenever the candidate's customer is unresolved) it passes through
unchanged. -/
theorem C4_phaseA_postpone_iff (g : Option Int → Option Int)
    (cur prev : RoundedEntry) :
    (phaseAFold g cur prev
        = { cur with startTime := cur.startTime + ROUNDING_INTERVAL_MINUTES * 60 * 1000 }
      ↔ getOverlapMs prev.startTime prev.endTime cur.startTime cur.endTime
          = ROUNDING_INTERVAL_MINUTES * 60 * 1000 ∧
        g cur.phaseId = g prev.phaseId ∧ g cur.phaseId ≠ none) ∧
    ((getOverlapMs prev.startTime prev.endTime cur.startTime cur.endTime
        ≠ ROUNDING_INTERVAL_MINUTES * 60 * 1000 ∨
      ¬(g cur.phaseId = g prev.phaseId ∧ g cur.phaseId ≠ none)) →
      phaseAFold g cur prev = cur) ∧
    (g cur.phaseId = none → phaseAFold g cur prev = cur) := by
  have hms : ROUNDING_INTERVAL_MINUTES * 60 * 1000 = (300000 : ℤ) := by decide
  have hne : ({ cur with startTime := cur.startTime + ROUNDING_INTERVAL_MINUTES * 60 * 1000 }
      : RoundedEntry) ≠ cur := by
    intro h
    have h' : cur.startTime + ROUNDING_INTERVAL_MINUTES * 60 * 1000 = cur.startTime :=
      congrArg RoundedEntry.startTime h
    rw [hms] at h'
    linarith
  refine ⟨⟨?_, ?_⟩, ?_, ?_⟩
  · intro h
    by_cases h1 : getOverlapMs prev.startTime prev.endTime cur.startTime cur.endTime
        = ROUNDING_INTERVAL_MINUTES * 60 * 1000
    · by_cases h2 : g cur.phaseId = g prev.phaseId ∧ g cur.phaseId ≠ none
      · exact ⟨h1, h2⟩
      · rw [phaseAFold, if_pos h1, if_neg h2] at h
        exact absurd h.symm hne
    · rw [phaseAFold, if_neg h1] at h
      exact absurd h.symm hne
  · rintro ⟨h1, h2⟩
    rw [phaseAFold, if_pos h1, if_pos h2]
  · intro h
    rcases h with h1 | h2
    · rw [phaseAFold, if_neg h1]
    · by_cases h1 : getOverlapMs prev.startTime prev.endTime cur.startTime cur.endTime
          = ROUNDING_INTERVAL_MINUTES * 60 * 1000
      · rw [phaseAFold, if_pos h1, if_neg h2]
      · rw [phaseAFold, if_neg h1]
  · intro h
    have h2 : ¬(g cur.phaseId = g prev.phaseId ∧ g cur.phaseId ≠ none) := by
      rintro ⟨-, hn⟩
      exact hn h
    by_cases h1 : getOverlapMs prev.startTime prev.endTime cur.startTime cur.endTime
        = ROUNDING_INTERVAL_MINUTES * 60 * 1000
    · rw [phaseAFold, if_pos h1, if_neg h2]
    · rw [phaseAFold, if_neg h1]

/-- Witness for C4: at a concrete same-customer pair overlapping by exactly
five minutes the step postpones the candidate by exactly five minutes. -/
theorem C4_phaseA_postpone_iff_witness :
    phaseAFold (fun _ => some 7) (mkRounded 2 (some 11) 300000 900000)
        (mkRounded 1 (some 10) 0 600000)
      = { mkRounded 2 (some 11) 300000 900000 with
          startTime := (mkRounded 2 (some 11) 300000 900000).startTime
            + ROUNDING_INTERVAL_MINUTES * 60 * 1000 } :=
  (C4_phaseA_postpone_iff (fun _ => some 7) (mkRounded 2 (some 11) 300000 900000)
    (mkRounded 1 (some 10) 0 600000)).1.mpr ⟨by decide, by decide, by decide⟩

/-- C1 (code bug): postponing a same-customer entry whose duration is exactly
one rounding interval collapses it to zero duration, but the entry is NOT
dropped: the `continue` at rounding.ts line 140 targets the inner loop, so
the zero-duration entry is still pushed into the result, contradicting the
comment above it ("If this creates a zero-duration entry, skip it").  At the
failing input below the output has length 2 and contains an entry with
start = end. -/
theorem C1_zero_duration_entry_retained :
    (handlePrecisionOverlapping
        [mkRounded 1 (some 10) 0 600000, mkRounded 2 (some 11) 300000 600000]
        (fun _ => some 7)).length = 2 ∧
    ∃ e ∈ handlePrecisionOverlapping
        [mkRounded 1 (some 10) 0 600000, mkRounded 2 (some 11) 300000 600000]
        (fun _ => some 7),
      e.startTime = e.endTime := by decide

/-! ### Block combination (`combineIntoBlocks`) -/

theorem le_blockEndUpdate (m : Time) (e : RoundedEntry) : m ≤ blockEndUpdate m e := by
  unfold blockEndUpdate
  split
  · linarith
  · exact le_refl m

theorem endTime_le_blockEndUpdate (m : Time) (e : RoundedEntry) :
    e.endTime ≤ blockEndUpdate m e := by
  unfold blockEndUpdate
  split
  · exact le_refl _
  · linarith

theorem le_runEnd (l : List RoundedEntry) : ∀ m : Time, m ≤ runEnd m l := by
  induction l with
  | nil => intro m; exact le_refl m
  | cons e es ih =>
      intro m
      exact le_trans (le_blockEndUpdate m e) (ih (blockEndUpdate m e))

theorem runEnd_mem (l : List RoundedEntry) : ∀ m : Time,
    runEnd m l = m ∨ ∃ e ∈ l, runEnd m l = e.endTime := by
  induction l with
  | nil => intro m; exact Or.inl rfl
  | cons e es ih =>
      intro m
      have h : runEnd m (e :: es) = runEnd (blockEndUpdate m e) es := rfl
      rcases ih (blockEndUpdate m e) with h1 | ⟨x, hx, hx2⟩
      · by_cases he : e.endTime > m
        · have hbe : blockEndUpdate m e = e.endTime := by
            unfold blockEndUpdate; rw [if_pos he]
          rw [hbe] at h1
          exact Or.inr ⟨e, List.mem_cons_self e es, by rw [h, hbe]; exact h1⟩
        · have hbe : blockEndUpdate m e = m := by
            unfold blockEndUpdate; rw [if_neg he]
          rw [hbe] at h1
          exact Or.inl (by rw [h, hbe]; exact h1)
      · exact Or.inr ⟨x, List.mem_cons_of_mem e hx, by rw [h, hx2]⟩

theorem endTime_le_runEnd (l : List RoundedEntry) : ∀ (m : Time), ∀ e ∈ l,
    e.endTime ≤ runEnd m l := by
  induction l with
  | nil => intro m e he; exact absurd he (List.not_mem_nil e)
  | cons x xs ih =>
      intro m e he
      rcases List.mem_cons.mp he with rfl | he'
      · exact le_trans (endTime_le_blockEndUpdate m e) (le_runEnd xs _)
      · exact ih (blockEndUpdate m x) e he'

theorem runEnd_append (m : Time) (l : List RoundedEntry) (e : RoundedEntry) :
    runEnd m (l ++ [e]) = blockEndUpdate (runEnd m l) e := by
  unfold runEnd
  rw [List.foldl_append]
  rfl

theorem chainedFrom_append {m : Time} {l : List RoundedEntry} {e : RoundedEntry}
    (h : chainedFrom m l) (he : e.startTime ≤ runEnd m l) :
    chainedFrom m (l ++ [e]) := by
  induction l generalizing m with
  | nil => exact ⟨he, trivial⟩
  | cons x xs ih =>
      obtain ⟨hx, hrest⟩ := h
      exact ⟨hx, ih hrest he⟩

theorem combineGo_spec (l : List RoundedEntry) : ∀ (cur : CombinedDuration),
    BlockInv cur →
    ((combineGo cur l).flatMap (fun b => b.entries) = cur.entries ++ l ∧
      (∃ b0 bs, combineGo cur l = b0 :: bs ∧ b0.startTime = cur.startTime)) ∧
    List.Chain' (fun b b' => b.endTime < b'.startTime) (combineGo cur l) ∧
    ∀ b ∈ combineGo cur l, BlockInv b := by
  induction l with
  | nil =>
      intro cur hinv
      refine ⟨⟨by simp [combineGo], cur, [], rfl, rfl⟩, ?_, ?_⟩
      · show List.Chain' _ [cur]
        exact List.chain'_singleton cur
      · intro b hb
        have hb' : b ∈ [cur] := hb
        rw [List.mem_singleton] at hb'
        exact hb' ▸ hinv
  | cons e rest ih =>
      intro cur hinv
      by_cases h : e.startTime ≤ cur.endTime
      · have hgo : combineGo cur (e :: rest)
            = combineGo
                { cur with
                    endTime := blockEndUpdate cur.endTime e
                    entries := cur.entries ++ [e] } rest := by
          simp only [combineGo]
          rw [if_pos h]
        obtain ⟨e0, es, h1, h2, h3, h4, h5⟩ := hinv
        have hinv' : BlockInv
            { cur with
                endTime := blockEndUpdate cur.endTime e
                entries := cur.entries ++ [e] } := by
          refine ⟨e0, es ++ [e], ?_, h2, h3, ?_, ?_⟩
          · show cur.entries ++ [e] = e0 :: (es ++ [e])
            rw [h1]; rfl
          · show blockEndUpdate cur.endTime e = runEnd e0.endTime (es ++ [e])
            rw [runEnd_append, h4]
          · exact chainedFrom_append h5 (h4 ▸ h)
        obtain ⟨⟨hflat, b0, bs, heq, hb0⟩, hchain, hblocks⟩ := ih _ hinv'
        refine ⟨⟨?_, b0, bs, by rw [hgo, heq], hb0⟩, by rw [hgo]; exact hchain,
          by rw [hgo]; exact hblocks⟩
        rw [hgo, hflat]
        show (cur.entries ++ [e]) ++ rest = cur.entries ++ e :: rest
        rw [List.append_assoc]
        rfl
      · have hgo : combineGo cur (e :: rest)
            = cur :: combineGo
                { phaseId := e.phaseId, startTime := e.startTime
                  endTime := e.endTime, entries := [e] } rest := by
          simp only [combineGo]
          rw [if_neg h]
        have hinv' : BlockInv
            { phaseId := e.phaseId, startTime := e.startTime
              endTime := e.endTime, entries := [e] } :=
          ⟨e, [], rfl, rfl, rfl, rfl, trivial⟩
        obtain ⟨⟨hflat, b0, bs, heq, hb0⟩, hchain, hblocks⟩ := ih _ hinv'
        refine ⟨⟨?_, cur, combineGo
            { phaseId := e.phaseId, startTime := e.startTime
              endTime := e.endTime, entries := [e] } rest, hgo, rfl⟩, ?_, ?_⟩
        · rw [hgo, List.flatMap_cons, hflat]
          rfl
        · rw [hgo, heq]
          refine List.chain'_cons.mpr ⟨?_, heq ▸ hchain⟩
          rw [hb0]
          exact lt_of_not_le h
        · intro b hb
          rw [hgo] at hb
          rcases List.mem_cons.mp hb with rfl | hb'
          · exact hinv
          · exact hblocks b hb'

theorem sortRounded_perm (l : List RoundedEntry) : (sortRounded l).Perm l :=
  List.perm_insertionSort _ l

theorem sortRounded_sorted (l : List RoundedEntry) :
    List.Sorted (byStart RoundedEntry.startTime) (sortRounded l) :=
  List.sorted_insertionSort _ l

theorem entries_sublist_flatMap {bs : List CombinedDuration} {b : CombinedDuration}
    (hb : b ∈ bs) : b.entries.Sublist (bs.flatMap fun x => x.entries) := by
  induction bs with
  | nil => cases hb
  | cons x xs ih =>
      rw [List.flatMap_cons]
      rcases List.mem_cons.mp hb with rfl | hb'
      · exact List.sublist_append_left _ _
      · exact (ih hb').trans (List.sublist_append_right _ _)

/-- C6: `combineIntoBlocks` partitions the sorted entries into blocks: every
input entry lands in exactly one block (the flattened blocks are a
permutation of the input), successive blocks are separated by a strict gap,
each block's phase id and start come from its first (earliest-start) entry,
each entry joined while starting no later than the running block end, and the
block end is the maximum end among its entries. -/
theorem C6_combineIntoBlocks_spec (entries : List RoundedEntry) :
    ((combineIntoBlocks entries).flatMap (fun b => b.entries)).Perm entries ∧
    List.Chain' (fun b b' => b.endTime < b'.startTime) (combineIntoBlocks entries) ∧
    ∀ b ∈ combineIntoBlocks entries, ∃ e0 es, b.entries = e0 :: es ∧
      b.phaseId = e0.phaseId ∧ b.startTime = e0.startTime ∧
      b.endTime = runEnd e0.endTime es ∧ chainedFrom e0.endTime es ∧
      (∀ e ∈ b.entries, e0.startTime ≤ e.startTime) ∧
      (∀ e ∈ b.entries, e.endTime ≤ b.endTime) ∧
      ∃ e ∈ b.entries, b.endTime = e.endTime := by
  cases hs : sortRounded entries with
  | nil =>
      have hperm := sortRounded_perm entries
      rw [hs] at hperm
      have hent : entries = [] := hperm.symm.eq_nil
      subst hent
      have hcb : combineIntoBlocks [] = [] := by
        unfold combineIntoBlocks
        rw [hs]
      rw [hcb]
      exact ⟨by simp, List.chain'_nil, by intro b hb; cases hb⟩
  | cons first rest =>
      have hcb : combineIntoBlocks entries
          = combineGo { phaseId := first.phaseId, startTime := first.startTime
                        endTime := first.endTime, entries := [first] } rest := by
        unfold combineIntoBlocks
        rw [hs]
      have hinv : BlockInv { phaseId := first.phaseId, startTime := first.startTime
                             endTime := first.endTime, entries := [first] } :=
        ⟨first, [], rfl, rfl, rfl, rfl, trivial⟩
      obtain ⟨⟨hflat, hhead⟩, hchain, hblocks⟩ := combineGo_spec rest _ hinv
      refine ⟨?_, by rw [hcb]; exact hchain, ?_⟩
      · rw [hcb, hflat]
        show (first :: rest).Perm entries
        have hp := sortRounded_perm entries
        rw [hs] at hp
        exact hp
      · intro b hb
        rw [hcb] at hb
        obtain ⟨e0, es, h1, h2, h3, h4, h5⟩ := hblocks b hb
        refine ⟨e0, es, h1, h2, h3, h4, h5, ?_, ?_, ?_⟩
        · have hsub : b.entries.Sublist
              ((combineGo { phaseId := first.phaseId, startTime := first.startTime
                            endTime := first.endTime, entries := [first] } rest).flatMap
                fun x => x.entries) := entries_sublist_flatMap hb
          rw [hflat] at hsub
          have hsorted : List.Sorted (byStart RoundedEntry.startTime) (first :: rest) := by
            have hss := sortRounded_sorted entries
            rw [hs] at hss
            exact hss
          have hbs : List.Sorted (byStart RoundedEntry.startTime) b.entries :=
            List.Pairwise.sublist hsub hsorted
          rw [h1] at hbs
          intro e he
          rw [h1] at he
          rcases List.mem_cons.mp he with rfl | he'
          · exact le_refl _
          · exact (List.pairwise_cons.mp hbs).1 e he'
        · intro e he
          rw [h1] at he
          rw [h4]
          rcases List.mem_cons.mp he with rfl | he'
          · exact le_runEnd es _
          · exact endTime_le_runEnd es e0.endTime e he'
        · rcases runEnd_mem es e0.endTime with hm | ⟨x, hx, hx2⟩
          · exact ⟨e0, by rw [h1]; exact List.mem_cons_self _ _, by rw [h4, hm]⟩
          · exact ⟨x, by rw [h1]; exact List.mem_cons_of_mem _ hx, by rw [h4, hx2]⟩

/-- Witness for C6 at a concrete input: the first block combines the two
joining entries, and the flattened blocks are a permutation of the input. -/
theorem C6_combineIntoBlocks_spec_witness :
    ((combineIntoBlocks c6Input).flatMap (fun b => b.entries)).Perm c6Input ∧
    List.Chain' (fun b b' => b.endTime < b'.startTime) (combineIntoBlocks c6Input) ∧
    ∃ e0 es, c6Block.entries = e0 :: es ∧
      c6Block.phaseId = e0.phaseId ∧ c6Block.startTime = e0.startTime ∧
      c6Block.endTime = runEnd e0.endTime es ∧ chainedFrom e0.endTime es ∧
      (∀ e ∈ c6Block.entries, e0.startTime ≤ e.startTime) ∧
      (∀ e ∈ c6Block.entries, e.endTime ≤ c6Block.endTime) ∧
      ∃ e ∈ c6Block.entries, c6Block.endTime = e.endTime :=
  ⟨(C6_combineIntoBlocks_spec c6Input).1, (C6_combineIntoBlocks_spec c6Input).2.1,
    (C6_combineIntoBlocks_spec c6Input).2.2 c6Block (by decide)⟩

/-! ### Phase B (`handleOverlapping`) -/

theorem clearSource_startTime {a b : RoundedEntry} (h : clearSource a = clearSource b) :
    a.startTime = b.startTime := by
  have h' := congrArg RoundedEntry.startTime h
  exact h'

theorem clearSource_endTime {a b : RoundedEntry} (h : clearSource a = clearSource b) :
    a.endTime = b.endTime := by
  have h' := congrArg RoundedEntry.endTime h
  exact h'

theorem entriesOverlap_congr_left {a a' b : RoundedEntry}
    (h : clearSource a = clearSource a') :
    entriesOverlap a b ↔ entriesOverlap a' b := by
  unfold entriesOverlap
  rw [clearSource_startTime h, clearSource_endTime h]

theorem phaseBGo_spec : ∀ (l res : List RoundedEntry), ∃ l',
    phaseBGo res l = res ++ l' ∧ l'.length = l.length ∧
    ∀ (k : ℕ) (hk : k < l.length) (hk' : k < l'.length),
      clearSource (l'.get ⟨k, hk'⟩) = clearSource (l.get ⟨k, hk⟩) ∧
      (((∃ p ∈ res, entriesOverlap p (l.get ⟨k, hk⟩)) ∨
        ∃ j : ℕ, ∃ hj : j < k, entriesOverlap (l.get ⟨j, hj.trans hk⟩) (l.get ⟨k, hk⟩)) →
        (l'.get ⟨k, hk'⟩).source = Source.insideRoundedOverlapping) ∧
      (¬((∃ p ∈ res, entriesOverlap p (l.get ⟨k, hk⟩)) ∨
        ∃ j : ℕ, ∃ hj : j < k, entriesOverlap (l.get ⟨j, hj.trans hk⟩) (l.get ⟨k, hk⟩)) →
        (l'.get ⟨k, hk'⟩).source = (l.get ⟨k, hk⟩).source) := by
  intro l
  induction l with
  | nil =>
      intro res
      exact ⟨[], by simp [phaseBGo], rfl, fun k hk => absurd hk (by simp)⟩
  | cons e rest ih =>
      intro res
      set tagged := if res.any (fun p =>
          decide (rangesOverlap p.startTime p.endTime e.startTime e.endTime))
        then { e with source := Source.insideRoundedOverlapping } else e with htagged
      have hclear : clearSource tagged = clearSource e := by
        rw [htagged]
        by_cases hb : res.any (fun p =>
            decide (rangesOverlap p.startTime p.endTime e.startTime e.endTime)) = true
        · rw [if_pos hb]
          rfl
        · rw [if_neg hb]
      have hstep : phaseBGo res (e :: rest) = phaseBGo (res ++ [tagged]) rest := rfl
      obtain ⟨rest', hrest, hlen, hspec⟩ := ih (res ++ [tagged])
      refine ⟨tagged :: rest', ?_, by simp [hlen], ?_⟩
      · rw [hstep, hrest, List.append_assoc]
        rfl
      · intro k hk hk'
        cases k with
        | zero =>
            refine ⟨hclear, ?_, ?_⟩
            · intro hcond
              rcases hcond with ⟨p, hp, hov⟩ | ⟨j, hj, -⟩
              · have hb : res.any (fun p =>
                    decide (rangesOverlap p.startTime p.endTime e.startTime e.endTime))
                    = true :=
                  List.any_eq_true.mpr ⟨p, hp, decide_eq_true hov⟩
                show tagged.source = Source.insideRoundedOverlapping
                rw [htagged, if_pos hb]
              · exact absurd hj (Nat.not_lt_zero j)
            · intro hncond
              have hb : ¬(res.any (fun p =>
                  decide (rangesOverlap p.startTime p.endTime e.startTime e.endTime))
                  = true) := by
                intro hb
                obtain ⟨p, hp, hov⟩ := List.any_eq_true.mp hb
                exact hncond (Or.inl ⟨p, hp, of_decide_eq_true hov⟩)
              show tagged.source = e.source
              rw [htagged, if_neg hb]
        | succ k =>
            have hk2 : k < rest.length := by
              have hh := hk
              simp only [List.length_cons] at hh
              omega
            have hk2' : k < rest'.length := by
              rw [hlen]
              exact hk2
            obtain ⟨hc, hpos, hneg⟩ := hspec k hk2 hk2'
            have hget1 : (tagged :: rest').get ⟨k + 1, hk'⟩ = rest'.get ⟨k, hk2'⟩ :=
              List.get_cons_succ
            have hget2 : (e :: rest).get ⟨k + 1, hk⟩ = rest.get ⟨k, hk2⟩ :=
              List.get_cons_succ
            have hcondiff :
                ((∃ p ∈ res, entriesOverlap p ((e :: rest).get ⟨k + 1, hk⟩)) ∨
                  ∃ j : ℕ, ∃ hj : j < k + 1,
                    entriesOverlap ((e :: rest).get ⟨j, hj.trans hk⟩)
                      ((e :: rest).get ⟨k + 1, hk⟩)) ↔
                ((∃ p ∈ res ++ [tagged], entriesOverlap p (rest.get ⟨k, hk2⟩)) ∨
                  ∃ j : ℕ, ∃ hj : j < k,
                    entriesOverlap (rest.get ⟨j, hj.trans hk2⟩) (rest.get ⟨k, hk2⟩)) := by
              rw [hget2]
              constructor
              · rintro (⟨p, hp, hov⟩ | ⟨j, hj, hov⟩)
                · exact Or.inl ⟨p, List.mem_append_left _ hp, hov⟩
                · cases j with
                  | zero =>
                      refine Or.inl ⟨tagged,
                        List.mem_append_right _ (List.mem_singleton_self _), ?_⟩
                      exact (entriesOverlap_congr_left hclear).mpr hov
                  | succ j =>
                      have hj2 : j < k := by omega
                      refine Or.inr ⟨j, hj2, ?_⟩
                      have hg : (e :: rest).get ⟨j + 1, (by
                          simp only [List.length_cons]
                          omega : j + 1 < (e :: rest).length)⟩
                          = rest.get ⟨j, hj2.trans hk2⟩ := List.get_cons_succ
                      rw [← hg]
                      exact hov
              · rintro (⟨p, hp, hov⟩ | ⟨j, hj, hov⟩)
                · rcases List.mem_append.mp hp with hp' | hp'
                  · exact Or.inl ⟨p, hp', hov⟩
                  · rw [List.mem_singleton] at hp'
                    subst hp'
                    refine Or.inr ⟨0, Nat.succ_pos k, ?_⟩
                    show entriesOverlap e (rest.get ⟨k, hk2⟩)
                    exact (entriesOverlap_congr_left hclear).mp hov
                · refine Or.inr ⟨j + 1, by omega, ?_⟩
                  have hg : (e :: rest).get ⟨j + 1, (by
                      simp only [List.length_cons]
                      omega : j + 1 < (e :: rest).length)⟩
                      = rest.get ⟨j, hj.trans hk2⟩ := List.get_cons_succ
                  rw [hg]
                  exact hov
            refine ⟨?_, ?_, ?_⟩
            · rw [hget1, hget2]
              exact hc
            · intro hcond
              rw [hget1]
              exact hpos (hcondiff.mp hcond)
            · intro hncond
              rw [hget1, hget2]
              exact hneg fun hc' => hncond (hcondiff.mpr hc')

/-- C8: Phase B changes only the provenance tag: the output is the sorted
input with every field except `source` unchanged (so the output modulo tags
is a permutation of the input modulo tags — nothing is moved, shortened or
dropped), and an entry is re-tagged `inside-rounded-overlapping` when its
interval intersects an earlier accepted entry's interval; when all input
sources are `inside-rounded`, the tag appears precisely on such entries. -/
theorem C8_handleOverlapping_frame (entries : List RoundedEntry) :
    (handleOverlapping entries).length = (sortRounded entries).length ∧
    ((handleOverlapping entries).map clearSource).Perm (entries.map clearSource) ∧
    ∀ (k : ℕ) (hk : k < (sortRounded entries).length)
      (hk' : k < (handleOverlapping entries).length),
      clearSource ((handleOverlapping entries).get ⟨k, hk'⟩)
        = clearSource ((sortRounded entries).get ⟨k, hk⟩) ∧
      ((∃ j : ℕ, ∃ hj : j < k,
          entriesOverlap ((sortRounded entries).get ⟨j, hj.trans hk⟩)
            ((sortRounded entries).get ⟨k, hk⟩)) →
        ((handleOverlapping entries).get ⟨k, hk'⟩).source
          = Source.insideRoundedOverlapping) ∧
      (¬(∃ j : ℕ, ∃ hj : j < k,
          entriesOverlap ((sortRounded entries).get ⟨j, hj.trans hk⟩)
            ((sortRounded entries).get ⟨k, hk⟩)) →
        ((handleOverlapping entries).get ⟨k, hk'⟩).source
          = ((sortRounded entries).get ⟨k, hk⟩).source) ∧
      ((∀ x ∈ entries, x.source = Source.insideRounded) →
        (((handleOverlapping entries).get ⟨k, hk'⟩).source
            = Source.insideRoundedOverlapping ↔
          ∃ j : ℕ, ∃ hj : j < k,
            entriesOverlap ((sortRounded entries).get ⟨j, hj.trans hk⟩)
              ((sortRounded entries).get ⟨k, hk⟩))) := by
  obtain ⟨l', hl, hlen, hspec⟩ := phaseBGo_spec (sortRounded entries) []
  have hout : handleOverlapping entries = l' := by
    unfold handleOverlapping
    rw [hl]
    exact List.nil_append l'
  rw [hout]
  refine ⟨hlen, ?_, ?_⟩
  · have hmapeq : l'.map clearSource = (sortRounded entries).map clearSource := by
      apply List.ext_get (by simp [hlen])
      intro n h1 h2
      have hn1 : n < l'.length := by simpa using h1
      have hn2 : n < (sortRounded entries).length := by simpa using h2
      rw [List.get_map, List.get_map]
      exact (hspec n hn2 hn1).1
    rw [hmapeq]
    exact (sortRounded_perm entries).map clearSource
  · intro k hk hk'
    obtain ⟨hc, hpos, hneg⟩ := hspec k hk hk'
    have hcond_iff :
        ((∃ p ∈ ([] : List RoundedEntry),
            entriesOverlap p ((sortRounded entries).get ⟨k, hk⟩)) ∨
          (∃ j : ℕ, ∃ hj : j < k,
            entriesOverlap ((sortRounded entries).get ⟨j, hj.trans hk⟩)
              ((sortRounded entries).get ⟨k, hk⟩))) ↔
        (∃ j : ℕ, ∃ hj : j < k,
          entriesOverlap ((sortRounded entries).get ⟨j, hj.trans hk⟩)
            ((sortRounded entries).get ⟨k, hk⟩)) := by
      constructor
      · rintro (⟨p, hp, -⟩ | h)
        · exact absurd hp (List.not_mem_nil p)
        · exact h
      · exact Or.inr
    refine ⟨hc, fun h => hpos (Or.inr h),
      fun h => hneg (fun hc' => h (hcond_iff.mp hc')), ?_⟩
    intro hsrc
    constructor
    · intro hovsrc
      by_contra hnj
      have hsame := hneg (fun hc' => hnj (hcond_iff.mp hc'))
      have hmem : (sortRounded entries).get ⟨k, hk⟩ ∈ entries :=
        (sortRounded_perm entries).subset (List.get_mem _ _ _)
      have hround := hsrc _ hmem
      rw [hsame, hround] at hovsrc
      cases hovsrc
    · exact fun h => hpos (Or.inr h)

/-- Witness for C8: with two overlapping entries the later one is re-tagged
and the multiset of entries modulo tags is unchanged. -/
theorem C8_handleOverlapping_frame_witness :
    ((handleOverlapping [mkRounded 1 (some 1) 0 600000,
        mkRounded 2 (some 2) 300000 900000]).map clearSource).Perm
      ([mkRounded 1 (some 1) 0 600000, mkRounded 2 (some 2) 300000 900000].map
        clearSource) ∧
    ((handleOverlapping [mkRounded 1 (some 1) 0 600000,
        mkRounded 2 (some 2) 300000 900000]).get ⟨1, by decide⟩).source
      = Source.insideRoundedOverlapping :=
  ⟨(C8_handleOverlapping_frame [mkRounded 1 (some 1) 0 600000,
      mkRounded 2 (some 2) 300000 900000]).2.1,
    ((C8_handleOverlapping_frame [mkRounded 1 (some 1) 0 600000,
      mkRounded 2 (some 2) 300000 900000]).2.2 1 (by decide) (by decide)).2.1
      ⟨0, Nat.zero_lt_one, by decide⟩⟩

/-! ### C5: pairwise overlap marking -/

theorem entriesOverlap_symm {a b : RoundedEntry} (h : entriesOverlap a b) :
    entriesOverlap b a := ⟨h.2, h.1⟩

/-- C5 (amended): among the overlap-resolved rounded entries — the output of
`handleOverlapping` — any two distinct records whose intervals intersect
include at least one tagged `inside-rounded-overlapping`; equivalently,
untagged rounded entries are pairwise non-overlapping.  (The original claim
over the full merged output, padding records included, is refuted by
`C5_merged_output_counterexample`.) -/
theorem C5_overlap_resolver_pairwise (entries : List RoundedEntry) :
    ∀ (i j : ℕ) (hi : i < (handleOverlapping entries).length)
      (hj : j < (handleOverlapping entries).length), i ≠ j →
      entriesOverlap ((handleOverlapping entries).get ⟨i, hi⟩)
        ((handleOverlapping entries).get ⟨j, hj⟩) →
      ((handleOverlapping entries).get ⟨i, hi⟩).source
          = Source.insideRoundedOverlapping ∨
      ((handleOverlapping entries).get ⟨j, hj⟩).source
          = Source.insideRoundedOverlapping := by
  obtain ⟨l', hl, hlen, hspec⟩ := phaseBGo_spec (sortRounded entries) []
  have hout : handleOverlapping entries = l' := by
    unfold handleOverlapping
    rw [hl]
    exact List.nil_append l'
  rw [hout]
  have key : ∀ (i j : ℕ) (hi : i < l'.length) (hj : j < l'.length), i < j →
      entriesOverlap (l'.get ⟨i, hi⟩) (l'.get ⟨j, hj⟩) →
      (l'.get ⟨j, hj⟩).source = Source.insideRoundedOverlapping := by
    intro i j hi hj hij hov
    have hsi : i < (sortRounded entries).length := by rw [← hlen]; exact hi
    have hsj : j < (sortRounded entries).length := by rw [← hlen]; exact hj
    have hci := (hspec i hsi hi).1
    have hcj := (hspec j hsj hj).1
    have hov' : entriesOverlap ((sortRounded entries).get ⟨i, hsi⟩)
        ((sortRounded entries).get ⟨j, hsj⟩) := by
      have h1 := (entriesOverlap_congr_left hci).mp hov
      exact entriesOverlap_symm ((entriesOverlap_congr_left hcj).mp
        (entriesOverlap_symm h1))
    exact (hspec j hsj hj).2.1 (Or.inr ⟨i, hij, hov'⟩)
  intro i j hi hj hne hov
  rcases Nat.lt_or_ge i j with hij | hge
  · exact Or.inr (key i j hi hj hij hov)
  · have hij : j < i := lt_of_le_of_ne hge (Ne.symm hne)
    exact Or.inl (key j i hj hi hij (entriesOverlap_symm hov))

/-- Witness for C5's amended theorem: two overlapping entries, the later is
tagged. -/
theorem C5_overlap_resolver_pairwise_witness :
    ((handleOverlapping [mkRounded 1 (some 1) 0 600000,
        mkRounded 2 (some 2) 300000 900000]).get ⟨0, by decide⟩).source
      = Source.insideRoundedOverlapping ∨
    ((handleOverlapping [mkRounded 1 (some 1) 0 600000,
        mkRounded 2 (some 2) 300000 900000]).get ⟨1, by decide⟩).source
      = Source.insideRoundedOverlapping :=
  C5_overlap_resolver_pairwise [mkRounded 1 (some 1) 0 600000,
    mkRounded 2 (some 2) 300000 900000] 0 1 (by decide) (by decide)
    (by decide) (by decide)

/-- Counterexample to C5 as stated: in the full merged pipeline output a
minimum-billing padding record can intersect an untagged rounded entry that
began before the padding's block ended — here raw entry 1 (no case config)
spans [0, 3600000) ms while raw entry 2's short block earns padding
[900000, 2100000) ms; the two intersecting records are both untagged. -/
theorem C5_merged_output_counterexample :
    ∃ r1 ∈ runPipeline 0
        [mkRaw 1 (some 1) 0 (some 3600000), mkRaw 2 (some 2) 300000 (some 900000)]
        (fun _ => none) (fun p => if p = some 2 then some ⟨7, 30⟩ else none)
        (fun _ _ => none),
      ∃ r2 ∈ runPipeline 0
        [mkRaw 1 (some 1) 0 (some 3600000), mkRaw 2 (some 2) 300000 (some 900000)]
        (fun _ => none) (fun p => if p = some 2 then some ⟨7, 30⟩ else none)
        (fun _ _ => none),
      r1 ≠ r2 ∧ rangesOverlap r1.startTime r1.endTime r2.startTime r2.endTime ∧
      r1.source ≠ Source.insideRoundedOverlapping ∧
      r2.source ≠ Source.insideRoundedOverlapping := by decide

/-! ### Minimum billing lemmas -/

theorem getBlockDurationMinutes_lt_iff (b : CombinedDuration) (m : ℤ) :
    getBlockDurationMinutes b < (m : ℚ) ↔ b.endTime - b.startTime < m * 60 * 1000 := by
  unfold getBlockDurationMinutes
  rw [div_lt_iff (by norm_num : (0:ℚ) < 60 * 1000)]
  rw [show ((m:ℚ) * (60 * 1000)) = ((m * 60 * 1000 : ℤ) : ℚ) by push_cast; ring]
  exact Int.cast_lt

theorem neededPadding_minutes_eq (b : CombinedDuration) (m : ℤ) :
    ((m : ℚ) - getBlockDurationMinutes b) * (60 * 1000)
      = ((m * 60 * 1000 - (b.endTime - b.startTime) : ℤ) : ℚ) := by
  unfold getBlockDurationMinutes
  field_simp
  ring

theorem clampEndOfDay_le_limit (tz s d : Time) :
    clampEndOfDay tz s d ≤ getEndOfDayLimit tz s := by
  unfold clampEndOfDay
  by_cases h : d > getEndOfDayLimit tz s
  · rw [if_pos h]
  · rw [if_neg h]
    exact le_of_not_lt h

theorem clampEndOfDay_le_self (tz s d : Time) : clampEndOfDay tz s d ≤ d := by
  unfold clampEndOfDay
  by_cases h : d > getEndOfDayLimit tz s
  · rw [if_pos h]
    exact le_of_lt h
  · rw [if_neg h]

theorem clampNextStart_le_self (ns : Option Time) (d : Time) :
    clampNextStart ns d ≤ d := by
  cases ns with
  | none => exact le_refl d
  | some n =>
      show (if d > n then n else d) ≤ d
      by_cases h : d > n
      · rw [if_pos h]
        exact le_of_lt h
      · rw [if_neg h]

theorem clampNextStart_le_next (n d : Time) : clampNextStart (some n) d ≤ n := by
  show (if d > n then n else d) ≤ n
  by_cases h : d > n
  · rw [if_pos h]
  · rw [if_neg h]
    exact le_of_not_lt h

theorem paddingForBlock_eq_some {tz : Time} {next : Time → List Int → Option Time}
    {m : ℤ} {b : CombinedDuration} {p : MinimumBillingEntry}
    (h : paddingForBlock tz next m b = some p) :
    b.endTime - b.startTime < m * 60 * 1000 ∧
    p.startTime = b.endTime ∧
    b.endTime < p.endTime ∧
    p.endTime = paddingDesiredEnd tz next m b ∧
    p.endTime ≤ getEndOfDayLimit tz b.endTime ∧
    (∀ ns, next b.endTime (b.entries.map fun e => e.hourEntryId) = some ns →
      p.endTime ≤ ns) ∧
    p.endTime - p.startTime ≤ m * 60 * 1000 - (b.endTime - b.startTime) ∧
    ∃ ref es, b.entries = ref :: es ∧ p.hourEntryId = ref.hourEntryId ∧
      p.phaseId = ref.phaseId ∧ p.worktypeId = ref.worktypeId ∧
      p.originalHourEntryId = ref.hourEntryId ∧
      p.source = Source.insideMinimumBillableTime := by
  unfold paddingForBlock at h
  by_cases h1 : b.endTime - b.startTime ≥ m * 60 * 1000
  · rw [if_pos h1] at h
    cases h
  · rw [if_neg h1] at h
    by_cases h2 : paddingDesiredEnd tz next m b > b.endTime
    · rw [if_pos h2] at h
      cases hbe : b.entries with
      | nil =>
          rw [hbe] at h
          cases h
      | cons ref es =>
          rw [hbe] at h
          simp only [Option.some.injEq] at h
          subst h
          have hdesired_le : paddingDesiredEnd tz next m b
              ≤ paddingDesiredEnd0 m b := by
            unfold paddingDesiredEnd
            exact le_trans (clampNextStart_le_self _ _) (clampEndOfDay_le_self _ _ _)
          refine ⟨lt_of_not_ge h1, rfl, h2, rfl, ?_, ?_, ?_, ref, es, rfl,
            rfl, rfl, rfl, rfl, rfl⟩
          · show paddingDesiredEnd tz next m b ≤ getEndOfDayLimit tz b.endTime
            unfold paddingDesiredEnd
            exact le_trans (clampNextStart_le_self _ _) (clampEndOfDay_le_limit _ _ _)
          · intro ns hns
            show paddingDesiredEnd tz next m b ≤ ns
            unfold paddingDesiredEnd
            rw [hbe, hns]
            exact clampNextStart_le_next _ _
          · show paddingDesiredEnd tz next m b - b.endTime
              ≤ m * 60 * 1000 - (b.endTime - b.startTime)
            have h0 : paddingDesiredEnd0 m b
                = b.endTime + (m * 60 * 1000 - (b.endTime - b.startTime)) := rfl
            linarith [hdesired_le, h0.le, h0.ge]
    · rw [if_neg h2] at h
      cases h

theorem sortMinBilling_perm (l : List MinimumBillingEntry) :
    (sortMinBilling l).Perm l :=
  List.perm_insertionSort _ l

theorem mem_applyMinimumBilling {tz : Time} {entries : List RoundedEntry}
    {cfg : Option Int → Option CaseConfig}
    {next : Time → List Int → Option Time} {p : MinimumBillingEntry} :
    p ∈ applyMinimumBilling tz entries cfg next ↔
    ∃ g ∈ groupByCase cfg entries [], p ∈ paddingForCase tz cfg next g.2 := by
  show p ∈ sortMinBilling ((groupByCase cfg entries []).flatMap fun g =>
    paddingForCase tz cfg next g.2) ↔ _
  unfold sortMinBilling
  rw [List.mem_insertionSort, List.mem_flatMap]

theorem mem_paddingForCase {tz : Time} {cfg : Option Int → Option CaseConfig}
    {next : Time → List Int → Option Time} {ces : List RoundedEntry}
    {p : MinimumBillingEntry} :
    p ∈ paddingForCase tz cfg next ces ↔
    ∃ f rest, ces = f :: rest ∧ ∃ c, cfg f.phaseId = some c ∧
      ∃ b ∈ combineIntoBlocks ces,
        paddingForBlock tz next c.minBillableTimeInMin b = some p := by
  cases ces with
  | nil =>
      constructor
      · intro hp
        cases hp
      · rintro ⟨f, rest, heq, -⟩
        cases heq
  | cons f rest =>
      constructor
      · intro hp
        cases hc : cfg f.phaseId with
        | none =>
            have hp' : p ∈ (match cfg f.phaseId with
                | none => ([] : List MinimumBillingEntry)
                | some config => (combineIntoBlocks (f :: rest)).flatMap fun block =>
                    (paddingForBlock tz next config.minBillableTimeInMin block).toList) := hp
            rw [hc] at hp'
            cases hp'
        | some c =>
            have hp' : p ∈ (match cfg f.phaseId with
                | none => ([] : List MinimumBillingEntry)
                | some config => (combineIntoBlocks (f :: rest)).flatMap fun block =>
                    (paddingForBlock tz next config.minBillableTimeInMin block).toList) := hp
            rw [hc] at hp'
            rw [List.mem_flatMap] at hp'
            obtain ⟨b, hb, hpb⟩ := hp'
            refine ⟨f, rest, rfl, c, hc, b, hb, ?_⟩
            cases hval : paddingForBlock tz next c.minBillableTimeInMin b with
            | none =>
                rw [hval] at hpb
                cases hpb
            | some q =>
                rw [hval] at hpb
                rw [Option.toList_some, List.mem_singleton] at hpb
                rw [hpb]
      · rintro ⟨fb, restb, heq, c, hc, b, hb, hpb⟩
        injection heq with hf hr
        subst hf
        subst hr
        show p ∈ (match cfg f.phaseId with
            | none => ([] : List MinimumBillingEntry)
            | some config => (combineIntoBlocks (f :: rest)).flatMap fun block =>
                (paddingForBlock tz next config.minBillableTimeInMin block).toList)
        rw [hc, List.mem_flatMap]
        refine ⟨b, hb, ?_⟩
        rw [hpb, Option.toList_some]
        exact List.mem_singleton_self p

theorem pushGroup_sound {m : List (Int × List RoundedEntry)} {k0 : Int}
    {e : RoundedEntry} {k : Int} {es : List RoundedEntry}
    (h : (k, es) ∈ pushGroup m k0 e) :
    ∀ x ∈ es, (∃ es', (k, es') ∈ m ∧ x ∈ es') ∨ (x = e ∧ k = k0) := by
  induction m with
  | nil =>
      rw [show pushGroup [] k0 e = [(k0, [e])] from rfl, List.mem_singleton] at h
      injection h with h1 h2
      subst h1
      subst h2
      intro x hx
      rw [List.mem_singleton] at hx
      exact Or.inr ⟨hx, rfl⟩
  | cons kv rest ih =>
      obtain ⟨k', es'⟩ := kv
      by_cases hk : k' = k0
      · rw [show pushGroup ((k', es') :: rest) k0 e
            = if k' = k0 then (k', es' ++ [e]) :: rest
              else (k', es') :: pushGroup rest k0 e from rfl, if_pos hk] at h
        rcases List.mem_cons.mp h with heq | hmem
        · injection heq with h1 h2
          subst h1
          intro x hx
          rw [h2] at hx
          rcases List.mem_append.mp hx with hx' | hx'
          · exact Or.inl ⟨es', List.mem_cons_self _ _, hx'⟩
          · rw [List.mem_singleton] at hx'
            exact Or.inr ⟨hx', hk⟩
        · intro x hx
          exact Or.inl ⟨es, List.mem_cons_of_mem _ (by
            have : ((k, es) : Int × List RoundedEntry) ∈ rest := hmem
            exact this), hx⟩
      · rw [show pushGroup ((k', es') :: rest) k0 e
            = if k' = k0 then (k', es' ++ [e]) :: rest
              else (k', es') :: pushGroup rest k0 e from rfl, if_neg hk] at h
        rcases List.mem_cons.mp h with heq | hmem
        · injection heq with h1 h2
          subst h1
          subst h2
          intro x hx
          exact Or.inl ⟨es, List.mem_cons_self _ _, hx⟩
        · intro x hx
          rcases ih hmem x hx with ⟨es'', hes'', hx'⟩ | hxe
          · exact Or.inl ⟨es'', List.mem_cons_of_mem _ hes'', hx'⟩
          · exact Or.inr hxe

theorem groupByCase_sound {cfg : Option Int → Option CaseConfig} :
    ∀ (entries : List RoundedEntry) (m : List (Int × List RoundedEntry))
      (k : Int) (es : List RoundedEntry),
      (k, es) ∈ groupByCase cfg entries m → ∀ x ∈ es,
      (∃ es', (k, es') ∈ m ∧ x ∈ es') ∨
      (x ∈ entries ∧ ∃ c, cfg x.phaseId = some c ∧
        ¬(c.minBillableTimeInMin ≤ 0) ∧ c.caseId = k) := by
  intro entries
  induction entries with
  | nil =>
      intro m k es h x hx
      exact Or.inl ⟨es, h, hx⟩
  | cons e rest ih =>
      intro m k es h x hx
      have hstep : groupByCase cfg (e :: rest) m
          = match cfg e.phaseId with
            | none => groupByCase cfg rest m
            | some config =>
                if config.minBillableTimeInMin ≤ 0 then groupByCase cfg rest m
                else groupByCase cfg rest (pushGroup m config.caseId e) := rfl
      cases hc : cfg e.phaseId with
      | none =>
          rw [hstep, hc] at h
          rcases ih m k es h x hx with hl | ⟨hmem, hcfg⟩
          · exact Or.inl hl
          · exact Or.inr ⟨List.mem_cons_of_mem _ hmem, hcfg⟩
      | some c =>
          rw [hstep, hc] at h
          have h' : (k, es) ∈ (if c.minBillableTimeInMin ≤ 0
              then groupByCase cfg rest m
              else groupByCase cfg rest (pushGroup m c.caseId e)) := h
          by_cases hmin : c.minBillableTimeInMin ≤ 0
          · rw [if_pos hmin] at h'
            rcases ih m k es h' x hx with hl | ⟨hmem, hcfg⟩
            · exact Or.inl hl
            · exact Or.inr ⟨List.mem_cons_of_mem _ hmem, hcfg⟩
          · rw [if_neg hmin] at h'
            rcases ih _ k es h' x hx with ⟨es', hes', hx'⟩ | ⟨hmem, hcfg⟩
            · rcases pushGroup_sound hes' x hx' with hl | ⟨hxe, hkc⟩
              · exact Or.inl hl
              · subst hxe
                exact Or.inr ⟨List.mem_cons_self _ _, c, hc, hmin, hkc.symm⟩
            · exact Or.inr ⟨List.mem_cons_of_mem _ hmem, hcfg⟩

theorem mem_of_mem_combineIntoBlocks {es : List RoundedEntry}
    {b : CombinedDuration} {x : RoundedEntry}
    (hb : b ∈ combineIntoBlocks es) (hx : x ∈ b.entries) : x ∈ es := by
  cases hs : sortRounded es with
  | nil =>
      unfold combineIntoBlocks at hb
      rw [hs] at hb
      cases hb
  | cons f rest =>
      have hcb : combineIntoBlocks es
          = combineGo { phaseId := f.phaseId, startTime := f.startTime
                        endTime := f.endTime, entries := [f] } rest := by
        unfold combineIntoBlocks
        rw [hs]
      rw [hcb] at hb
      obtain ⟨⟨hflat, -⟩, -, -⟩ :=
        combineGo_spec rest
          { phaseId := f.phaseId, startTime := f.startTime
            endTime := f.endTime, entries := [f] }
          ⟨f, [], rfl, rfl, rfl, rfl, trivial⟩
      have hsub := entries_sublist_flatMap hb
      rw [hflat] at hsub
      have hxs : x ∈ f :: rest := hsub.subset hx
      exact (sortRounded_perm es).subset (by rw [hs]; exact hxs)

/-- C2: every padding record starts at its block's end, never extends past
the 23:55 end-of-day limit of its start's local day, never extends past a
returned next-entry start, and has strictly positive duration (a clamped
non-positive interval emits nothing). -/
theorem C2_padding_bounded (tz : Time) (entries : List RoundedEntry)
    (cfg : Option Int → Option CaseConfig)
    (next : Time → List Int → Option Time) :
    ∀ p ∈ applyMinimumBilling tz entries cfg next,
      p.startTime < p.endTime ∧
      p.endTime ≤ getEndOfDayLimit tz p.startTime ∧
      ∃ k g f gs c, (k, g) ∈ groupByCase cfg entries [] ∧ g = f :: gs ∧
        cfg f.phaseId = some c ∧
        ∃ b ∈ combineIntoBlocks g,
          paddingForBlock tz next c.minBillableTimeInMin b = some p ∧
          p.startTime = b.endTime ∧
          ∀ ns, next b.endTime (b.entries.map fun e => e.hourEntryId) = some ns →
            p.endTime ≤ ns := by
  intro p hp
  obtain ⟨g, hg, hpc⟩ := mem_applyMinimumBilling.mp hp
  obtain ⟨f, gs, hge, c, hc, b, hb, hpb⟩ := mem_paddingForCase.mp hpc
  obtain ⟨hshort, hstart, hpos, -, hlimit, hnext, -, -⟩ := paddingForBlock_eq_some hpb
  refine ⟨by rw [hstart]; exact hpos, by rw [hstart]; exact hlimit,
    g.1, g.2, f, gs, c, hg, hge, hc, b, hb, hpb, hstart, hnext⟩

/-- Witness for C2 at a concrete short block. -/
theorem C2_padding_bounded_witness :
    mbPadding.startTime < mbPadding.endTime ∧
    mbPadding.endTime ≤ getEndOfDayLimit 0 mbPadding.startTime ∧
    ∃ k g f gs c,
      (k, g) ∈ groupByCase mbCfg [mkRounded 2 (some 2) 300000 900000] [] ∧
      g = f :: gs ∧ mbCfg f.phaseId = some c ∧
      ∃ b ∈ combineIntoBlocks g,
        paddingForBlock 0 mbNext c.minBillableTimeInMin b = some mbPadding ∧
        mbPadding.startTime = b.endTime ∧
        ∀ ns, mbNext b.endTime (b.entries.map fun e => e.hourEntryId) = some ns →
          mbPadding.endTime ≤ ns :=
  C2_padding_bounded 0 [mkRounded 2 (some 2) 300000 900000] mbCfg mbNext
    mbPadding (by decide)

/-- C9: `applyMinimumBilling` degrades by omission: an entry whose case
config is missing or whose minimum is non-positive is in no group and no
block, and every emitted padding record is anchored to a reference entry
that does have a config with a positive minimum (the function itself is
total by construction, returning a list for every input). -/
theorem C9_min_billing_degrades_by_omission (tz : Time)
    (entries : List RoundedEntry) (cfg : Option Int → Option CaseConfig)
    (next : Time → List Int → Option Time) :
    (∀ e ∈ entries,
      (cfg e.phaseId = none ∨
        ∃ c, cfg e.phaseId = some c ∧ c.minBillableTimeInMin ≤ 0) →
      ∀ k g, (k, g) ∈ groupByCase cfg entries [] →
        e ∉ g ∧ ∀ b ∈ combineIntoBlocks g, e ∉ b.entries) ∧
    (∀ p ∈ applyMinimumBilling tz entries cfg next,
      ∃ r ∈ entries, (∃ c, cfg r.phaseId = some c ∧ 0 < c.minBillableTimeInMin) ∧
        p.hourEntryId = r.hourEntryId ∧ p.originalHourEntryId = r.hourEntryId ∧
        p.phaseId = r.phaseId ∧ p.worktypeId = r.worktypeId) := by
  constructor
  · intro e he hbad k g hkg
    have hnotg : e ∉ g := by
      intro hin
      rcases groupByCase_sound entries [] k g hkg e hin with ⟨es', hes', -⟩ | ⟨-, c, hc, hmin, -⟩
      · exact absurd hes' (List.not_mem_nil _)
      · rcases hbad with hnone | ⟨c', hc', hmin'⟩
        · rw [hnone] at hc
          cases hc
        · rw [hc'] at hc
          injection hc with hcc
          subst hcc
          exact hmin hmin'
    exact ⟨hnotg, fun b hb hin => hnotg (mem_of_mem_combineIntoBlocks hb hin)⟩
  · intro p hp
    obtain ⟨g, hg, hpc⟩ := mem_applyMinimumBilling.mp hp
    obtain ⟨f, gs, hge, c, hc, b, hb, hpb⟩ := mem_paddingForCase.mp hpc
    obtain ⟨-, -, -, -, -, -, -, ref, es, hbe, hid, hph, hwt, horig, -⟩ :=
      paddingForBlock_eq_some hpb
    have hrefb : ref ∈ b.entries := by
      rw [hbe]
      exact List.mem_cons_self _ _
    have hrefg : ref ∈ g.2 := mem_of_mem_combineIntoBlocks hb hrefb
    rcases groupByCase_sound entries [] g.1 g.2 hg ref hrefg with
      ⟨es', hes', -⟩ | ⟨hmem, c', hc', hmin', -⟩
    · exact absurd hes' (List.not_mem_nil _)
    · exact ⟨ref, hmem, ⟨c', hc', lt_of_not_ge hmin'⟩, hid, horig, hph, hwt⟩

/-- Witness for C9: the no-config entry is grouped nowhere, and the emitted
padding is anchored to the configured entry. -/
theorem C9_min_billing_degrades_by_omission_witness :
    (mkRounded 1 (some 1) 0 600000 ∉ [mkRounded 2 (some 2) 300000 900000] ∧
      ∀ b ∈ combineIntoBlocks [mkRounded 2 (some 2) 300000 900000],
        mkRounded 1 (some 1) 0 600000 ∉ b.entries) ∧
    ∃ r ∈ [mkRounded 1 (some 1) 0 600000, mkRounded 2 (some 2) 300000 900000],
      (∃ c, mbCfg r.phaseId = some c ∧ 0 < c.minBillableTimeInMin) ∧
      mbPadding.hourEntryId = r.hourEntryId ∧
      mbPadding.originalHourEntryId = r.hourEntryId ∧
      mbPadding.phaseId = r.phaseId ∧ mbPadding.worktypeId = r.worktypeId :=
  ⟨(C9_min_billing_degrades_by_omission 0
      [mkRounded 1 (some 1) 0 600000, mkRounded 2 (some 2) 300000 900000]
      mbCfg mbNext).1 (mkRounded 1 (some 1) 0 600000) (by decide)
      (Or.inl (by decide)) 7 [mkRounded 2 (some 2) 300000 900000] (by decide),
    (C9_min_billing_degrades_by_omission 0
      [mkRounded 1 (some 1) 0 600000, mkRounded 2 (some 2) 300000 900000]
      mbCfg mbNext).2 mbPadding (by decide)⟩

/-- C10: at most one padding record per block; an emitted record exists only
for a block strictly below the minimum, its duration never exceeds the
shortfall, and block duration plus padding duration never exceeds the
minimum. -/
theorem C10_padding_at_most_shortfall (tz : Time)
    (next : Time → List Int → Option Time) (m : ℤ) (b : CombinedDuration) :
    (paddingForBlock tz next m b).toList.length ≤ 1 ∧
    ∀ p, paddingForBlock tz next m b = some p →
      getBlockDurationMinutes b < (m : ℚ) ∧
      getMinBillingDurationMinutes p ≤ (m : ℚ) - getBlockDurationMinutes b ∧
      getBlockDurationMinutes b + getMinBillingDurationMinutes p ≤ (m : ℚ) := by
  constructor
  · cases h : paddingForBlock tz next m b <;> simp
  · intro p hp
    obtain ⟨hshort, hstart, -, -, -, -, hdur, -⟩ := paddingForBlock_eq_some hp
    have h1 : getBlockDurationMinutes b < (m : ℚ) :=
      (getBlockDurationMinutes_lt_iff b m).mpr hshort
    have hEq : (m : ℚ) - getBlockDurationMinutes b
        = ((m * 60 * 1000 - (b.endTime - b.startTime) : ℤ) : ℚ) / (60 * 1000) := by
      rw [eq_div_iff (by norm_num : (60 * 1000 : ℚ) ≠ 0)]
      exact neededPadding_minutes_eq b m
    have h2 : getMinBillingDurationMinutes p
        ≤ (m : ℚ) - getBlockDurationMinutes b := by
      unfold getMinBillingDurationMinutes
      rw [hEq, div_le_div_iff_of_pos_right]
      · exact Int.cast_le.mpr hdur
      · norm_num
    exact ⟨h1, h2, by linarith⟩

/-- Witness for C10 at the concrete short block. -/
theorem C10_padding_at_most_shortfall_witness :
    (paddingForBlock 0 mbNext 30 mbBlock).toList.length ≤ 1 ∧
    (getBlockDurationMinutes mbBlock < ((30 : ℤ) : ℚ) ∧
      getMinBillingDurationMinutes mbPadding
        ≤ ((30 : ℤ) : ℚ) - getBlockDurationMinutes mbBlock ∧
      getBlockDurationMinutes mbBlock + getMinBillingDurationMinutes mbPadding
        ≤ ((30 : ℤ) : ℚ)) :=
  ⟨(C10_padding_at_most_shortfall 0 mbNext 30 mbBlock).1,
    (C10_padding_at_most_shortfall 0 mbNext 30 mbBlock).2 mbPadding (by decide)⟩

/-! ### C7: no silent time loss (coverage lemmas) -/

theorem coveredBy_append_left {res l : List RoundedEntry} {t : Time}
    (h : coveredBy res t) : coveredBy (res ++ l) t := by
  obtain ⟨r, hr, h1, h2⟩ := h
  exact ⟨r, List.mem_append_left _ hr, h1, h2⟩

theorem phaseAInner_cover (g : Option Int → Option Int)
    (res : List RoundedEntry) (e0 : RoundedEntry)
    (hres : ∀ p ∈ res, ∃ s0 : Time, s0 ≤ e0.startTime ∧ s0 ≤ p.startTime ∧
      ∀ t : Time, s0 ≤ t → t < p.startTime → coveredBy res t) :
    ∀ (l : List RoundedEntry), (∀ p ∈ l, p ∈ res) →
    ∀ (cur : RoundedEntry),
      e0.startTime ≤ cur.startTime → cur.endTime = e0.endTime →
      (∀ t : Time, e0.startTime ≤ t → t < cur.startTime → coveredBy res t) →
      e0.startTime ≤ (l.foldl (phaseAFold g) cur).startTime ∧
      (l.foldl (phaseAFold g) cur).endTime = e0.endTime ∧
      ∀ t : Time, e0.startTime ≤ t → t < (l.foldl (phaseAFold g) cur).startTime →
        coveredBy res t := by
  intro l
  induction l with
  | nil =>
      intro hsub cur hstart hend hcov
      exact ⟨hstart, hend, hcov⟩
  | cons p rest ih =>
      intro hsub cur hstart hend hcov
      have hpres : p ∈ res := hsub p (List.mem_cons_self _ _)
      have hsub' : ∀ q ∈ rest, q ∈ res := fun q hq => hsub q (List.mem_cons_of_mem _ hq)
      have hfold : (p :: rest).foldl (phaseAFold g) cur
          = rest.foldl (phaseAFold g) (phaseAFold g cur p) := rfl
      rw [hfold]
      by_cases h1 : getOverlapMs p.startTime p.endTime cur.startTime cur.endTime
          = ROUNDING_INTERVAL_MINUTES * 60 * 1000
      · by_cases h2 : g cur.phaseId = g p.phaseId ∧ g cur.phaseId ≠ none
        · have hstep : phaseAFold g cur p
              = { cur with
                  startTime := cur.startTime + ROUNDING_INTERVAL_MINUTES * 60 * 1000 } := by
            rw [phaseAFold, if_pos h1, if_pos h2]
          rw [hstep]
          have hRMS : (0:ℤ) < ROUNDING_INTERVAL_MINUTES * 60 * 1000 := by decide
          have hov : rangesOverlap p.startTime p.endTime cur.startTime cur.endTime := by
            by_contra hnov
            unfold getOverlapMs at h1
            rw [if_neg hnov] at h1
            exact absurd h1 (by decide)
          have h1' : min p.endTime cur.endTime - max p.startTime cur.startTime
              = ROUNDING_INTERVAL_MINUTES * 60 * 1000 := by
            unfold getOverlapMs at h1
            rw [if_pos hov] at h1
            exact h1
          have hcov' : ∀ t : Time, e0.startTime ≤ t →
              t < cur.startTime + ROUNDING_INTERVAL_MINUTES * 60 * 1000 →
              coveredBy res t := by
            intro t ht0 htlt
            by_cases htc : t < cur.startTime
            · exact hcov t ht0 htc
            · have hts : cur.startTime ≤ t := le_of_not_lt htc
              by_cases hps : p.startTime ≤ cur.startTime
              · have hmax : max p.startTime cur.startTime = cur.startTime :=
                  max_eq_right hps
                rw [hmax] at h1'
                have hpe : cur.startTime + ROUNDING_INTERVAL_MINUTES * 60 * 1000
                    ≤ p.endTime := by
                  have hmin := min_le_left p.endTime cur.endTime
                  linarith
                exact ⟨p, hpres, le_trans hps hts, lt_of_lt_of_le htlt hpe⟩
              · have hlt : cur.startTime < p.startTime := lt_of_not_le hps
                have hmax : max p.startTime cur.startTime = p.startTime :=
                  max_eq_left (le_of_lt hlt)
                rw [hmax] at h1'
                have hpe : p.startTime + ROUNDING_INTERVAL_MINUTES * 60 * 1000
                    ≤ p.endTime := by
                  have hmin := min_le_left p.endTime cur.endTime
                  linarith
                by_cases htp : t < p.startTime
                · obtain ⟨s0, hs0e, hs0p, hs0cov⟩ := hres p hpres
                  exact hs0cov t (le_trans hs0e (le_trans hstart hts)) htp
                · exact ⟨p, hpres, le_of_not_lt htp, by linarith⟩
          exact ih hsub'
            { cur with
                startTime := cur.startTime + ROUNDING_INTERVAL_MINUTES * 60 * 1000 }
            (by
              show e0.startTime ≤ cur.startTime + ROUNDING_INTERVAL_MINUTES * 60 * 1000
              linarith)
            hend hcov'
        · have hstep : phaseAFold g cur p = cur := by
            rw [phaseAFold, if_pos h1, if_neg h2]
          rw [hstep]
          exact ih hsub' cur hstart hend hcov
      · have hstep : phaseAFold g cur p = cur := by
          rw [phaseAFold, if_neg h1]
        rw [hstep]
        exact ih hsub' cur hstart hend hcov

theorem phaseAGo_cover (g : Option Int → Option Int) :
    ∀ (l res : List RoundedEntry),
      List.Sorted (byStart RoundedEntry.startTime) l →
      (∀ p ∈ res, ∃ s0 : Time, (∀ x ∈ l, s0 ≤ x.startTime) ∧ s0 ≤ p.startTime ∧
        ∀ t : Time, s0 ≤ t → t < p.startTime → coveredBy res t) →
      ∀ t : Time, (coveredBy res t ∨ coveredBy l t) →
        coveredBy (phaseAGo g res l) t := by
  intro l
  induction l with
  | nil =>
      intro res hsorted hres t hcase
      rcases hcase with h | ⟨r, hr, -⟩
      · exact h
      · exact absurd hr (List.not_mem_nil r)
  | cons e rest ih =>
      intro res hsorted hres t hcase
      have hgo : phaseAGo g res (e :: rest)
          = phaseAGo g (res ++ [phaseAInner g res e]) rest := rfl
      have hres0 : ∀ p ∈ res, ∃ s0 : Time, s0 ≤ e.startTime ∧ s0 ≤ p.startTime ∧
          ∀ u : Time, s0 ≤ u → u < p.startTime → coveredBy res u := by
        intro p hp
        obtain ⟨s0, hb, hs0p, hcov⟩ := hres p hp
        exact ⟨s0, hb e (List.mem_cons_self _ _), hs0p, hcov⟩
      obtain ⟨hstart', hend', hcov'⟩ :=
        phaseAInner_cover g res e hres0 res (fun p hp => hp) e (le_refl _) rfl
          (fun u h1 h2 => absurd h2 (not_lt.mpr h1))
      have heq : phaseAInner g res e = res.foldl (phaseAFold g) e := rfl
      rw [← heq] at hstart' hend' hcov'
      have hpw := List.pairwise_cons.mp hsorted
      have hres' : ∀ p ∈ res ++ [phaseAInner g res e], ∃ s0 : Time,
          (∀ x ∈ rest, s0 ≤ x.startTime) ∧ s0 ≤ p.startTime ∧
          ∀ u : Time, s0 ≤ u → u < p.startTime →
            coveredBy (res ++ [phaseAInner g res e]) u := by
        intro p hp
        rcases List.mem_append.mp hp with hp' | hp'
        · obtain ⟨s0, hb, hs0p, hcov⟩ := hres p hp'
          exact ⟨s0, fun x hx => hb x (List.mem_cons_of_mem _ hx), hs0p,
            fun u h1 h2 => coveredBy_append_left (hcov u h1 h2)⟩
        · rw [List.mem_singleton] at hp'
          subst hp'
          exact ⟨e.startTime, fun x hx => hpw.1 x hx, hstart',
            fun u h1 h2 => coveredBy_append_left (hcov' u h1 h2)⟩
      rw [hgo]
      apply ih (res ++ [phaseAInner g res e]) hpw.2 hres' t
      rcases hcase with h | ⟨r, hr, hrt1, hrt2⟩
      · exact Or.inl (coveredBy_append_left h)
      · rcases List.mem_cons.mp hr with hre | hr'
        · subst hre
          by_cases hte : t < (phaseAInner g res r).startTime
          · exact Or.inl (coveredBy_append_left (hcov' t hrt1 hte))
          · refine Or.inl ⟨phaseAInner g res r,
              List.mem_append_right _ (List.mem_singleton_self _),
              le_of_not_lt hte, ?_⟩
            rw [hend']
            exact hrt2

        · exact Or.inr ⟨r, hr', hrt1, hrt2⟩

theorem handlePrecisionOverlapping_cover (g : Option Int → Option Int)
    (entries : List RoundedEntry) (t : Time) (h : coveredBy entries t) :
    coveredBy (handlePrecisionOverlapping entries g) t := by
  unfold handlePrecisionOverlapping
  apply phaseAGo_cover g (sortRounded entries) [] (sortRounded_sorted entries)
    (fun p hp => absurd hp (List.not_mem_nil p)) t
  right
  obtain ⟨r, hr, h1, h2⟩ := h
  exact ⟨r, (sortRounded_perm entries).symm.subset hr, h1, h2⟩

theorem handleOverlapping_cover (entries : List RoundedEntry) (t : Time)
    (h : coveredBy entries t) : coveredBy (handleOverlapping entries) t := by
  obtain ⟨l', hl, hlen, hspec⟩ := phaseBGo_spec (sortRounded entries) []
  have hout : handleOverlapping entries = l' := by
    unfold handleOverlapping
    rw [hl]
    exact List.nil_append l'
  rw [hout]
  obtain ⟨r, hr, h1, h2⟩ := h
  have hrs : r ∈ sortRounded entries := (sortRounded_perm entries).symm.subset hr
  obtain ⟨⟨k, hk⟩, hget⟩ := List.mem_iff_get.mp hrs
  have hk' : k < l'.length := by
    rw [hlen]
    exact hk
  have hc := (hspec k hk hk').1
  refine ⟨l'.get ⟨k, hk'⟩, List.get_mem _ _ _, ?_, ?_⟩
  · rw [clearSource_startTime hc, hget]
    exact h1
  · rw [clearSource_endTime hc, hget]
    exact h2

theorem applyPrecisionRounding_cover {entries : List HourEntry} {e : HourEntry}
    {oe t : Time} (he : e ∈ entries) (hoe : e.endTime = some oe)
    (h1 : e.startTime ≤ t) (h2 : t < oe) :
    coveredBy (applyPrecisionRounding entries) t := by
  refine ⟨toRoundedEntry e oe,
    mem_applyPrecisionRounding.mpr ⟨e, he, oe, hoe, rfl⟩, ?_, ?_⟩
  · exact le_trans (roundDown_le e.startTime (by decide)) h1
  · exact lt_of_lt_of_le h2 (le_roundUp oe (by decide))

theorem mergedCoveredBy_of_rounded {R : List RoundedEntry}
    {P : List MinimumBillingEntry} {t : Time} (h : coveredBy R t) :
    mergedCoveredBy (mergeWithRoundedEntries R P) t := by
  obtain ⟨r, hr, h1, h2⟩ := h
  refine ⟨MergedRecord.rounded r, ?_, h1, h2⟩
  unfold mergeWithRoundedEntries
  rw [List.mem_insertionSort]
  exact List.mem_append_left _ (List.mem_map_of_mem MergedRecord.rounded hr)

/-- C7: the union of the intervals of all pipeline output records contains
the union of the original raw entries' intervals: every instant inside a raw
entry with non-null end is covered by some record of the merged output
(rounding grows intervals, Phase A postponement only removes instants the
already-placed entries still cover, Phase B only re-tags, merging only
adds). -/
theorem C7_no_silent_time_loss (tz : Time) (raws : List HourEntry)
    (g : Option Int → Option Int) (cfg : Option Int → Option CaseConfig)
    (next : Time → List Int → Option Time) (e : HourEntry) (oe t : Time)
    (he : e ∈ raws) (hoe : e.endTime = some oe)
    (h1 : e.startTime ≤ t) (h2 : t < oe) :
    mergedCoveredBy (runPipeline tz raws g cfg next) t := by
  have c1 : coveredBy (applyPrecisionRounding raws) t :=
    applyPrecisionRounding_cover he hoe h1 h2
  have c2 : coveredBy (handlePrecisionOverlapping (applyPrecisionRounding raws) g) t :=
    handlePrecisionOverlapping_cover g _ t c1
  have c3 : coveredBy (applyHoursBalanceRounding raws g) t :=
    handleOverlapping_cover _ t c2
  exact mergedCoveredBy_of_rounded c3

/-- Witness for C7 at a concrete raw entry and instant. -/
theorem C7_no_silent_time_loss_witness :
    mergedCoveredBy (runPipeline 0 [mkRaw 1 (some 1) 1000 (some 599000)]
      (fun _ => none) (fun _ => none) (fun _ _ => none)) 1000 :=
  C7_no_silent_time_loss 0 [mkRaw 1 (some 1) 1000 (some 599000)]
    (fun _ => none) (fun _ => none) (fun _ _ => none)
    (mkRaw 1 (some 1) 1000 (some 599000)) 599000 1000
    (by decide) rfl (by decide) (by decide)
